import Mathlib

/-!
# Verification of `Internally Stable Sets.cpp` and `Divisor Summation.cpp`

A shallow embedding of the two programs.

* `Graph` is the weighted adjacency structure: `_weights` and `_neighbors`
  are the two heap arrays, read as total functions of the index.  Cells the
  constructor does not write hold whatever the allocator left there; they are
  the arguments `w0` and `a0` of `Graph.create`.
* `ISS` is a candidate set: `_vertices` is the `std::set<int>` as its strictly
  ascending list of members, `_supersets` the tri-state cache.  Methods that
  write the cache through the `const` object return the updated object.
* `std::priority_queue<ISS*>` orders *pointers*, so the order in which
  candidates leave the queue is fixed by heap addresses, not by the program.
  The queue is a list and every iteration of the search loop receives the
  position of the candidate to take from a schedule; a theorem quantified over
  all schedules holds for every order.
* `int` sums come twice.  `ISS.get_weight`, `ISS.theoretical_max_weight`,
  `step`, `search_loop` and `Graph.max_iss_weight` compute in exact arithmetic;
  `ISS.get_weight32`, `ISS.theoretical_max_weight32`, `step32`,
  `search_loop32` and `Graph.max_iss_weight32` are the same code with every
  addition of weights wrapped into the range `-2 ^ 31 .. 2 ^ 31 - 1` of a
  32-bit `int` (`wrap32`).  The two agree when the absolute values of the
  weights add up to at most `2 ^ 31 - 1` (`max_iss_weight32_eq`).  The
  theorems on the optimum, on the bound and on the independence from the order
  are stated on the 32-bit search under that hypothesis.  The other theorems
  are stated on the exact search: either their inputs cannot overflow, or they
  are about termination, the shape of the candidates, the cache and the
  pushes, which do not depend on the arithmetic.
-/

namespace Spoj

/-! ## Graph -/

/-- The class `Graph`. -/
structure Graph where
  _num_vertices : Nat
  _weights : Nat → Int
  _neighbors : Nat → Nat → Bool

namespace Graph

/-- The constructor `Graph::Graph(int num_vertices)`: the weight array is
allocated and left as it is (`w0`), the rows `1..num_vertices` of the
adjacency matrix are cleared in the columns `1..num_vertices`, every other
cell is left as it is (`a0`). -/
def create (num_vertices : Nat) (w0 : Nat → Int) (a0 : Nat → Nat → Bool) : Graph where
  _num_vertices := num_vertices
  _weights := w0
  _neighbors := fun i j =>
    if 1 ≤ i ∧ i ≤ num_vertices ∧ 1 ≤ j ∧ j ≤ num_vertices then false else a0 i j

def get_num_vertices (g : Graph) : Nat := g._num_vertices

def get_weight (g : Graph) (vertex : Nat) : Int := g._weights vertex

def set_weight (g : Graph) (vertex : Nat) (weight : Int) : Graph :=
  { g with _weights := Function.update g._weights vertex weight }

/-- The two assignments of `Graph::add_edge`, one after the other. -/
def add_edge (g : Graph) (v1 v2 : Nat) : Graph :=
  let n1 : Nat → Nat → Bool :=
    Function.update g._neighbors v1 (Function.update (g._neighbors v1) v2 true)
  let n2 : Nat → Nat → Bool :=
    Function.update n1 v2 (Function.update (n1 v2) v1 true)
  { g with _neighbors := n2 }

def are_neighbors (g : Graph) (v1 v2 : Nat) : Bool := g._neighbors v1 v2

end Graph

/-! ## Candidate sets -/

/-- The class `ISS` without its `_graph` pointer, which every method below
receives as the argument `g`. -/
structure ISS where
  _vertices : List Nat
  _supersets : Nat → Int

/-- The `insert` of `std::set<int>` on the ascending list of members. -/
def set_insert (x : Nat) : List Nat → List Nat
  | [] => [x]
  | y :: ys =>
    if x < y then x :: y :: ys
    else if x = y then y :: ys
    else y :: set_insert x ys

namespace ISS

/-- The constructor `ISS::ISS(const Graph *graph)`: cells `1..n` of the cache
are set to -1.  Cell 0 is allocated and never written or read; it is read
here as 0, like every index past the array. -/
def new (g : Graph) : ISS where
  _vertices := []
  _supersets := fun i => if 1 ≤ i ∧ i ≤ g.get_num_vertices then -1 else 0

/-- The copy constructor `ISS::ISS(const ISS &copy)`. -/
def copy (g : Graph) (c : ISS) : ISS where
  _vertices := c._vertices
  _supersets := fun i =>
    if 1 ≤ i ∧ i ≤ g.get_num_vertices then (if c._supersets i = 0 then 0 else -1) else 0

def add_vertex (c : ISS) (vertex : Nat) : ISS :=
  { c with _vertices := set_insert vertex c._vertices }

/-- The method `ISS::get_weight` in exact arithmetic; `ISS.get_weight32` is
the sum in the `int` accumulator. -/
def get_weight (g : Graph) (c : ISS) : Int :=
  c._vertices.foldl (fun weight it => weight + g.get_weight it) 0

/-- The method `ISS::next_unchecked_vertex`: `*rbegin() + 1`, undefined
(`none`) on the empty set. -/
def next_unchecked_vertex (c : ISS) : Option Nat :=
  c._vertices.getLast?.map (· + 1)

/-- The inner loop of `ISS::can_make_superset`, with its `break`. -/
def scan_members (g : Graph) (vertex : Nat) : List Nat → Bool
  | [] => true
  | it :: rest => if g.are_neighbors it vertex then false else scan_members g vertex rest

/-- The method `ISS::can_make_superset`: the answer and the object with its
cache filled. -/
def can_make_superset (g : Graph) (c : ISS) (vertex : Nat) : Bool × ISS :=
  if c._supersets vertex = -1 then
    let result := scan_members g vertex c._vertices
    let c1 : ISS :=
      { c with _supersets := Function.update c._supersets vertex (if result then 1 else 0) }
    (decide (c1._supersets vertex ≠ 0), c1)
  else (decide (c._supersets vertex ≠ 0), c)

/-- The vertices `start, start + 1, ..., n` of the two `for` loops. -/
def loop_range (g : Graph) (start : Nat) : List Nat :=
  List.range' start (g.get_num_vertices + 1 - start)

/-- The method `ISS::theoretical_max_weight` in exact arithmetic: the bound and
the object with its cache filled; `ISS.theoretical_max_weight32` has the `int`
sums. -/
def theoretical_max_weight (g : Graph) (c : ISS) : Option (Int × ISS) :=
  match next_unchecked_vertex c with
  | none => none
  | some start =>
    let r := (loop_range g start).foldl
      (fun (acc : Int × ISS) vertex =>
        let a := can_make_superset g acc.2 vertex
        (if a.1 then acc.1 + g.get_weight vertex else acc.1, a.2))
      (0, c)
    some (get_weight g r.2 + r.1, r.2)

/-- The method `ISS::push_supersets`: the queue after the pushes. -/
def push_supersets (g : Graph) (c : ISS) (queue : List ISS) : Option (List ISS) :=
  match next_unchecked_vertex c with
  | none => none
  | some start =>
    let r := (loop_range g start).foldl
      (fun (acc : List ISS × ISS) vertex =>
        let a := can_make_superset g acc.2 vertex
        (if a.1 then acc.1 ++ [add_vertex (copy g a.2) vertex] else acc.1, a.2))
      (queue, c)
    some r.1

end ISS

/-! ## The search -/

/-- The local variables `best` and `unchecked` of `Graph::max_iss_weight`. -/
structure SearchState where
  best : Int
  unchecked : List ISS

/-- The first loop of `Graph::max_iss_weight`: one singleton per vertex. -/
def seed (g : Graph) : SearchState :=
  (List.range' 1 g._num_vertices).foldl
    (fun (st : SearchState) vertex =>
      let iss := (ISS.new g).add_vertex vertex
      let weight := iss.get_weight g
      { best := if weight > st.best then weight else st.best
        unchecked := st.unchecked ++ [iss] })
    { best := 0, unchecked := [] }

/-- One iteration of the `while` loop of `Graph::max_iss_weight`, taking the
candidate at position `choice` (modulo the length) of the queue.  The result
is `none` when the queue is empty or when `next_unchecked_vertex` is
undefined. -/
def step (g : Graph) (choice : Nat) (st : SearchState) : Option SearchState :=
  match st.unchecked[choice % st.unchecked.length]? with
  | none => none
  | some iss =>
    let rest := st.unchecked.eraseIdx (choice % st.unchecked.length)
    let weight := iss.get_weight g
    let best := if iss.get_weight g > st.best then weight else st.best
    match iss.theoretical_max_weight g with
    | none => none
    | some (bound, iss1) =>
      if bound > best then
        match iss1.push_supersets g rest with
        | none => none
        | some queue => some { best := best, unchecked := queue }
      else some { best := best, unchecked := rest }

/-- The `while` loop of `Graph::max_iss_weight`: it returns `best` once the
queue is empty and takes the head of the schedule as the position of the next
candidate otherwise; `none` when the schedule is used up first. -/
def search_loop (g : Graph) : List Nat → SearchState → Option Int
  | [], st => if st.unchecked.isEmpty then some st.best else none
  | choice :: schedule, st =>
    if st.unchecked.isEmpty then some st.best
    else (step g choice st).bind (search_loop g schedule)

/-- The method `Graph::max_iss_weight` under a schedule. -/
def Graph.max_iss_weight (g : Graph) (schedule : List Nat) : Option Int :=
  search_loop g schedule (seed g)

/-! ## The driver -/

/-- A call that `main` makes on the graph before the search. -/
inductive GraphOp where
  | set_weight (vertex : Nat) (weight : Int)
  | add_edge (v1 v2 : Nat)

/-- The call acts on vertices of `1..n`. -/
def GraphOp.in_range (n : Nat) : GraphOp → Prop
  | .set_weight vertex _ => 1 ≤ vertex ∧ vertex ≤ n
  | .add_edge v1 v2 => (1 ≤ v1 ∧ v1 ≤ n) ∧ (1 ≤ v2 ∧ v2 ≤ n)

def GraphOp.apply (g : Graph) : GraphOp → Graph
  | .set_weight vertex weight => g.set_weight vertex weight
  | .add_edge v1 v2 => g.add_edge v1 v2

/-- The graph after a sequence of calls, first call first. -/
def Graph.run_ops (g : Graph) (ops : List GraphOp) : Graph :=
  ops.foldl GraphOp.apply g

/-- The graph after a sequence of `add_edge` calls, first call first. -/
def Graph.add_edges (g : Graph) (edges : List (Nat × Nat)) : Graph :=
  edges.foldl (fun (h : Graph) e => h.add_edge e.1 e.2) g

/-! ## Independent sets -/

/-- No two distinct members of `S` are adjacent. -/
def Independent (g : Graph) (S : Finset Nat) : Prop :=
  ∀ a ∈ S, ∀ b ∈ S, a ≠ b → g.are_neighbors a b = false

instance (g : Graph) (S : Finset Nat) : Decidable (Independent g S) := by
  unfold Independent; infer_instance

/-- The sum of the weights of the members of `S`. -/
def total_weight (g : Graph) (S : Finset Nat) : Int :=
  ∑ v ∈ S, g.get_weight v

/-- The total weights of the independent sets of vertices of `1..n`, the empty
set included. -/
def independent_weights (g : Graph) : Set Int :=
  {w | ∃ S : Finset Nat, S ⊆ Finset.Icc 1 g.get_num_vertices ∧ Independent g S ∧
    total_weight g S = w}

/-! ## The search without the cache -/

/-- The vertices past the greatest member of `vs` that no member of `vs` has
as a neighbour: what `can_make_superset` accepts in the two `for` loops when
it recomputes adjacency on every call. -/
def qualifying (g : Graph) (vs : List Nat) : List Nat :=
  match vs.getLast? with
  | none => []
  | some m => (ISS.loop_range g (m + 1)).filter (fun v => ISS.scan_members g v vs)

/-- The weight of a list of members, as `ISS::get_weight` sums it. -/
def weight_of (g : Graph) (vs : List Nat) : Int :=
  vs.foldl (fun weight it => weight + g.get_weight it) 0

/-- The bound of `ISS::theoretical_max_weight` for the members `vs`. -/
def bound_of (g : Graph) (vs : List Nat) : Int :=
  weight_of g vs + ((qualifying g vs).map g.get_weight).sum

/-- One iteration of the search loop on member lists alone. -/
def ref_step (g : Graph) (choice : Nat) (st : Int × List (List Nat)) :
    Option (Int × List (List Nat)) :=
  match st.2[choice % st.2.length]? with
  | none => none
  | some vs =>
    let rest := st.2.eraseIdx (choice % st.2.length)
    let best := if weight_of g vs > st.1 then weight_of g vs else st.1
    if bound_of g vs > best then
      some (best, rest ++ (qualifying g vs).map (fun v => set_insert v vs))
    else some (best, rest)

/-- The member lists of a search state. -/
def SearchState.members (st : SearchState) : Int × List (List Nat) :=
  (st.best, st.unchecked.map ISS._vertices)

/-- Every filled cell of the cache of `c` holds what the inner loop of
`can_make_superset` computes for the members of `c`. -/
def CacheOK (g : Graph) (c : ISS) : Prop :=
  ∀ v, 1 ≤ v → v ≤ g.get_num_vertices →
    c._supersets v = -1 ∨ c._supersets v = (if ISS.scan_members g v c._vertices then 1 else 0)

/-- A candidate as the search keeps it: members not empty and strictly
ascending, cache consistent. -/
def Cand (g : Graph) (c : ISS) : Prop :=
  c._vertices ≠ [] ∧ c._vertices.Sorted (· < ·) ∧ CacheOK g c

/-- The number of member lists that can still be reached from a candidate whose
greatest member is the last of `vs`, itself included. -/
def subtree_size (n : Nat) (vs : List Nat) : Nat :=
  2 ^ (n - vs.getLast?.getD 0)

/-- The number of candidates that can still leave the queue. -/
def remaining (n : Nat) (queue : List (List Nat)) : Nat :=
  (queue.map (subtree_size n)).sum

/-- Member lists the search can hold: not empty, strictly ascending, within
`1..n`, and no member adjacent to a later one. -/
def GoodMembers (g : Graph) (vs : List Nat) : Prop :=
  vs ≠ [] ∧ vs.Sorted (· < ·) ∧ (∀ v ∈ vs, 1 ≤ v ∧ v ≤ g.get_num_vertices) ∧
    vs.Pairwise (fun a b => g.are_neighbors a b = false)

/-- The members `vs` are the least members of `T`. -/
def LeastMembers (vs : List Nat) (T : Finset Nat) : Prop :=
  (∀ v ∈ vs, v ∈ T) ∧ ∀ t ∈ T, t ∈ vs ∨ ∀ v ∈ vs, v < t

/-- The set `T` is accounted for: `best` has reached its weight or the queue
holds a candidate made of its least members. -/
def Covered (g : Graph) (T : Finset Nat) (st : Int × List (List Nat)) : Prop :=
  total_weight g T ≤ st.1 ∨ ∃ vs ∈ st.2, LeastMembers vs T

/-- Adjacency is symmetric on the vertices `1..n`. -/
def Graph.symmetric (g : Graph) : Prop :=
  ∀ a b, 1 ≤ a → a ≤ g.get_num_vertices → 1 ≤ b → b ≤ g.get_num_vertices →
    g.are_neighbors a b = g.are_neighbors b a

instance (n : Nat) (op : GraphOp) : Decidable (GraphOp.in_range n op) := by
  cases op <;> unfold GraphOp.in_range <;> infer_instance

/-- The calls `main` makes for one test case: `set_weight` for the vertices
`1, 2, ...` with the weights read, then `add_edge` for every pair read. -/
def input_ops (weights : List Int) (edges : List (Nat × Nat)) : List GraphOp :=
  List.zipWith GraphOp.set_weight (List.range' 1 weights.length) weights ++
    edges.map (fun e => GraphOp.add_edge e.1 e.2)

/-- The graph `main` builds for one test case. -/
def Graph.read (n : Nat) (w0 : Nat → Int) (a0 : Nat → Nat → Bool) (weights : List Int)
    (edges : List (Nat × Nat)) : Graph :=
  (Graph.create n w0 a0).run_ops (input_ops weights edges)

/-- A graph on `1..n` in a zeroed heap. -/
def Graph.sample (n : Nat) (weights : List Int) (edges : List (Nat × Nat)) : Graph :=
  Graph.read n (fun _ => 0) (fun _ _ => false) weights edges

/-! ## Divisor Summation -/

/-- The `for` loop of `Divisor Summation.cpp` from the counter `i` and the
running `sum` on; `none` when the fuel is used up before the loop condition
fails. -/
def divisor_loop (currNum : Int) : Nat → Int → Int → Option Int
  | 0, i, sum => if i * i ≤ currNum then none else some sum
  | fuel + 1, i, sum =>
    if i * i ≤ currNum then
      let sum1 := if currNum.tmod i = 0 then sum + i + currNum.tdiv i else sum
      let sum2 := if i * i = currNum then sum1 - i else sum1
      divisor_loop currNum fuel (i + 1) sum2
    else some sum

/-- The value the body of the `while` loop of `Divisor Summation.cpp` prints
for the input `currNum`. -/
def divisor_summation (fuel : Nat) (currNum : Int) : Option Int :=
  (divisor_loop currNum fuel 2 1).map (fun sum => if currNum = 1 then 0 else sum)

/-- The proper divisors of `n` above 1 that the loop has added when its counter
is `k`: the divisors below `k` and their cofactors. -/
def divisors_seen (n k : Nat) : Finset Nat :=
  (Nat.properDivisors n).filter (fun d => 1 < d ∧ (d < k ∨ n / d < k))

instance (vs : List Nat) (T : Finset Nat) : Decidable (LeastMembers vs T) := by
  unfold LeastMembers; infer_instance

/-! ## The order of the queue -/

/-- The operator `ISS::operator<`: the comparison of the two bounds.  The
program never calls it, so the cache it would fill is not returned. -/
def ISS.lt (g : Graph) (a b : ISS) : Option Bool :=
  match a.theoretical_max_weight g, b.theoretical_max_weight g with
  | some x, some y => some (decide (x.1 < y.1))
  | _, _ => none

/-- The candidate at position `choice` (modulo the length) is below no
candidate of the queue in the order of `ISS::operator<`. -/
def pops_highest (g : Graph) (choice : Nat) (st : SearchState) : Bool :=
  match st.unchecked[choice % st.unchecked.length]? with
  | none => false
  | some iss => st.unchecked.all (fun other => ISS.lt g iss other == some false)

/-- Every iteration of the run takes a candidate of highest bound. -/
def best_first (g : Graph) : List Nat → SearchState → Bool
  | [], _ => true
  | choice :: schedule, st =>
    if st.unchecked.isEmpty then true
    else pops_highest g choice st &&
      match step g choice st with
      | none => false
      | some st1 => best_first g schedule st1

/-- The value an `int` holds after an addition whose exact result is `x`: the
representative of `x` modulo `2 ^ 32` in `-2 ^ 31 .. 2 ^ 31 - 1`. -/
def wrap32 (x : Int) : Int := (x + 2147483648) % 4294967296 - 2147483648

/-- The method `ISS::get_weight` with the `int` accumulator. -/
def ISS.get_weight32 (g : Graph) (c : ISS) : Int :=
  c._vertices.foldl (fun weight it => wrap32 (weight + g.get_weight it)) 0

/-- The method `ISS::theoretical_max_weight` with `int` sums: the bound and the
object with its cache filled. -/
def ISS.theoretical_max_weight32 (g : Graph) (c : ISS) : Option (Int × ISS) :=
  match ISS.next_unchecked_vertex c with
  | none => none
  | some start =>
    let r := (ISS.loop_range g start).foldl
      (fun (acc : Int × ISS) vertex =>
        let a := ISS.can_make_superset g acc.2 vertex
        (if a.1 then wrap32 (acc.1 + g.get_weight vertex) else acc.1, a.2))
      (0, c)
    some (wrap32 (ISS.get_weight32 g r.2 + r.1), r.2)

/-- The first loop of `Graph::max_iss_weight` with `int` sums. -/
def seed32 (g : Graph) : SearchState :=
  (List.range' 1 g._num_vertices).foldl
    (fun (st : SearchState) vertex =>
      let iss := (ISS.new g).add_vertex vertex
      let weight := iss.get_weight32 g
      { best := if weight > st.best then weight else st.best
        unchecked := st.unchecked ++ [iss] })
    { best := 0, unchecked := [] }

/-- One iteration of the `while` loop of `Graph::max_iss_weight` with `int`
sums, taking the candidate at position `choice` (modulo the length). -/
def step32 (g : Graph) (choice : Nat) (st : SearchState) : Option SearchState :=
  match st.unchecked[choice % st.unchecked.length]? with
  | none => none
  | some iss =>
    let rest := st.unchecked.eraseIdx (choice % st.unchecked.length)
    let weight := iss.get_weight32 g
    let best := if iss.get_weight32 g > st.best then weight else st.best
    match iss.theoretical_max_weight32 g with
    | none => none
    | some (bound, iss1) =>
      if bound > best then
        match iss1.push_supersets g rest with
        | none => none
        | some queue => some { best := best, unchecked := queue }
      else some { best := best, unchecked := rest }

/-- The `while` loop of `Graph::max_iss_weight` with `int` sums. -/
def search_loop32 (g : Graph) : List Nat → SearchState → Option Int
  | [], st => if st.unchecked.isEmpty then some st.best else none
  | choice :: schedule, st =>
    if st.unchecked.isEmpty then some st.best
    else (step32 g choice st).bind (search_loop32 g schedule)

/-- The method `Graph::max_iss_weight` with `int` sums, under a schedule. -/
def Graph.max_iss_weight32 (g : Graph) (schedule : List Nat) : Option Int :=
  search_loop32 g schedule (seed32 g)

/-- The absolute values of the weights of `1..n` add up to at most
`2 ^ 31 - 1`, so that no sum of weights of distinct vertices leaves the range
of `int`. -/
def Graph.sums_fit (g : Graph) : Prop :=
  ∑ v ∈ Finset.Icc 1 g.get_num_vertices, |g.get_weight v| ≤ 2147483647

instance (g : Graph) : Decidable g.sums_fit := by
  unfold Graph.sums_fit; infer_instance

/-! # Lemmas -/

/-! ## Members and the inner loop -/

theorem scan_members_eq_true (g : Graph) (v : Nat) (vs : List Nat) :
    ISS.scan_members g v vs = true ↔ ∀ u ∈ vs, g.are_neighbors u v = false := by
  induction vs with
  | nil => simp [ISS.scan_members]
  | cons a l ih =>
    by_cases h : g.are_neighbors a v = true
    · simp [ISS.scan_members, h]
    · simp only [Bool.not_eq_true] at h
      simp [ISS.scan_members, h, ih]

theorem set_insert_of_lt (x : Nat) (vs : List Nat) (h : ∀ u ∈ vs, u < x) :
    set_insert x vs = vs ++ [x] := by
  induction vs with
  | nil => rfl
  | cons a l ih =>
    have ha : a < x := h a (List.mem_cons_self a l)
    have h1 : ¬ x < a := by omega
    have h2 : ¬ x = a := by omega
    simp only [set_insert, h1, h2, if_false, List.cons_append]
    rw [ih (fun u hu => h u (List.mem_cons_of_mem a hu))]

theorem sorted_lt_getLast (vs : List Nat) (hs : vs.Sorted (· < ·)) (m : Nat)
    (hm : vs.getLast? = some m) : ∀ u ∈ vs, u ≤ m := by
  induction vs with
  | nil => simp
  | cons a l ih =>
    intro u hu
    cases l with
    | nil =>
      simp at hm hu
      omega
    | cons b l2 =>
      have hs2 := List.sorted_cons.mp hs
      have hm2 : (b :: l2).getLast? = some m := by
        simpa [List.getLast?_cons_cons] using hm
      rcases List.mem_cons.mp hu with rfl | hu2
      · have h1 := hs2.1 b (List.mem_cons_self b l2)
        have h2 := ih hs2.2 hm2 b (List.mem_cons_self b l2)
        omega
      · exact ih hs2.2 hm2 u hu2

theorem weight_of_eq_sum (g : Graph) (vs : List Nat) :
    weight_of g vs = (vs.map g.get_weight).sum := by
  unfold weight_of
  have key : ∀ (l : List Nat) (a : Int),
      l.foldl (fun weight it => weight + g.get_weight it) a = a + (l.map g.get_weight).sum := by
    intro l
    induction l with
    | nil => intro a; simp
    | cons x l ih => intro a; simp [ih, add_assoc]
  simpa using key vs 0

theorem mem_loop_range (g : Graph) (start v : Nat) :
    v ∈ ISS.loop_range g start ↔ start ≤ v ∧ v ≤ g.get_num_vertices := by
  unfold ISS.loop_range
  rw [List.mem_range']
  constructor
  · rintro ⟨i, hi, rfl⟩
    omega
  · rintro ⟨h1, h2⟩
    exact ⟨v - start, by omega, by omega⟩

theorem mem_set_insert (x u : Nat) (vs : List Nat) :
    u ∈ set_insert x vs ↔ u = x ∨ u ∈ vs := by
  induction vs with
  | nil => simp [set_insert]
  | cons a l ih =>
    unfold set_insert
    split_ifs with h1 h2
    · simp
    · subst h2; simp
    · simp only [List.mem_cons, ih]
      tauto

theorem can_make_superset_spec (g : Graph) (c : ISS) (v : Nat) (hc : CacheOK g c)
    (h1 : 1 ≤ v) (h2 : v ≤ g.get_num_vertices) :
    (ISS.can_make_superset g c v).1 = ISS.scan_members g v c._vertices ∧
    (ISS.can_make_superset g c v).2._vertices = c._vertices ∧
    CacheOK g (ISS.can_make_superset g c v).2 := by
  unfold ISS.can_make_superset
  by_cases hu : c._supersets v = -1
  · simp only [hu, if_true, Function.update_same]
    refine ⟨?_, trivial, ?_⟩
    · cases ISS.scan_members g v c._vertices <;> simp
    · intro u hu1 hu2
      by_cases huv : u = v
      · subst huv
        right
        simp
      · simp only [Function.update_noteq huv]
        exact hc u hu1 hu2
  · simp only [hu, if_false]
    refine ⟨?_, trivial, hc⟩
    rcases hc v h1 h2 with h | h
    · exact absurd h hu
    · rw [h]
      cases ISS.scan_members g v c._vertices <;> simp

theorem bound_fold_spec (g : Graph) (l : List Nat)
    (hl : ∀ v ∈ l, 1 ≤ v ∧ v ≤ g.get_num_vertices) :
    ∀ (p : Int) (c : ISS), CacheOK g c →
      ((l.foldl (fun (acc : Int × ISS) vertex =>
          ((if (ISS.can_make_superset g acc.2 vertex).1 then acc.1 + g.get_weight vertex
            else acc.1), (ISS.can_make_superset g acc.2 vertex).2)) (p, c)).1
        = p + ((l.filter (fun v => ISS.scan_members g v c._vertices)).map g.get_weight).sum) ∧
      (l.foldl (fun (acc : Int × ISS) vertex =>
          ((if (ISS.can_make_superset g acc.2 vertex).1 then acc.1 + g.get_weight vertex
            else acc.1), (ISS.can_make_superset g acc.2 vertex).2)) (p, c)).2._vertices
        = c._vertices ∧
      CacheOK g (l.foldl (fun (acc : Int × ISS) vertex =>
          ((if (ISS.can_make_superset g acc.2 vertex).1 then acc.1 + g.get_weight vertex
            else acc.1), (ISS.can_make_superset g acc.2 vertex).2)) (p, c)).2 := by
  induction l with
  | nil => intro p c hc; simpa using hc
  | cons a l ih =>
    intro p c hc
    have ha := hl a (List.mem_cons_self a l)
    obtain ⟨e1, e2, e3⟩ := can_make_superset_spec g c a hc ha.1 ha.2
    have ih2 := ih (fun v hv => hl v (List.mem_cons_of_mem a hv))
      (if (ISS.can_make_superset g c a).1 then p + g.get_weight a else p)
      (ISS.can_make_superset g c a).2 e3
    simp only [List.foldl_cons]
    obtain ⟨i1, i2, i3⟩ := ih2
    refine ⟨?_, ?_, i3⟩
    · rw [i1, e2, e1]
      by_cases hs : ISS.scan_members g a c._vertices = true
      · simp [hs, List.filter_cons, add_assoc]
      · simp [hs, List.filter_cons]
    · rw [i2, e2]

theorem cand_child (g : Graph) (c : ISS) (v : Nat) (hc : CacheOK g c)
    (hs : c._vertices.Sorted (· < ·)) (hv : ∀ u ∈ c._vertices, u < v) :
    Cand g (ISS.add_vertex (ISS.copy g c) v) := by
  have hins : set_insert v c._vertices = c._vertices ++ [v] := set_insert_of_lt v _ hv
  refine ⟨?_, ?_, ?_⟩
  · simp [ISS.add_vertex, ISS.copy, hins]
  · simp only [ISS.add_vertex, ISS.copy, hins]
    unfold List.Sorted
    rw [List.pairwise_append]
    refine ⟨hs, List.pairwise_singleton _ _, ?_⟩
    intro a ha b hb
    simp only [List.mem_singleton] at hb
    subst hb
    exact hv a ha
  · intro u hu1 hu2
    simp only [ISS.add_vertex, ISS.copy, hu1, hu2, and_self, if_true]
    by_cases h0 : c._supersets u = 0
    · right
      simp only [h0, if_true]
      have hf : ISS.scan_members g u c._vertices = false := by
        rcases hc u hu1 hu2 with h | h
        · rw [h0] at h; omega
        · rw [h0] at h
          by_contra hne
          simp only [Bool.not_eq_false] at hne
          simp [hne] at h
      have hf2 : ISS.scan_members g u (set_insert v c._vertices) = false := by
        by_contra hne
        simp only [Bool.not_eq_false] at hne
        rw [scan_members_eq_true] at hne
        have : ISS.scan_members g u c._vertices = true := by
          rw [scan_members_eq_true]
          intro w hw
          exact hne w ((mem_set_insert v w _).mpr (Or.inr hw))
        rw [hf] at this
        exact Bool.false_ne_true this
      simp [hf2]
    · left
      simp [h0]

theorem push_fold_spec (g : Graph) (l : List Nat)
    (hl : ∀ v ∈ l, 1 ≤ v ∧ v ≤ g.get_num_vertices) :
    ∀ (q : List ISS) (c : ISS), CacheOK g c → c._vertices.Sorted (· < ·) →
      (∀ v ∈ l, ∀ u ∈ c._vertices, u < v) →
      ∃ kids : List ISS,
        (l.foldl (fun (acc : List ISS × ISS) vertex =>
          ((if (ISS.can_make_superset g acc.2 vertex).1
              then acc.1 ++ [ISS.add_vertex (ISS.copy g (ISS.can_make_superset g acc.2 vertex).2) vertex]
              else acc.1), (ISS.can_make_superset g acc.2 vertex).2)) (q, c)).1 = q ++ kids ∧
        kids.map ISS._vertices =
          (l.filter (fun v => ISS.scan_members g v c._vertices)).map
            (fun v => set_insert v c._vertices) ∧
        ∀ k ∈ kids, Cand g k := by
  induction l with
  | nil => intro q c _ _ _; exact ⟨[], by simp⟩
  | cons a l ih =>
    intro q c hc hs hv
    have ha := hl a (List.mem_cons_self a l)
    obtain ⟨e1, e2, e3⟩ := can_make_superset_spec g c a hc ha.1 ha.2
    have hs2 : (ISS.can_make_superset g c a).2._vertices.Sorted (· < ·) := by rw [e2]; exact hs
    have hv2 : ∀ v ∈ l, ∀ u ∈ (ISS.can_make_superset g c a).2._vertices, u < v := by
      rw [e2]; exact fun v hv' => hv v (List.mem_cons_of_mem a hv')
    obtain ⟨kids, k1, k2, k3⟩ := ih (fun v hv' => hl v (List.mem_cons_of_mem a hv'))
      (if (ISS.can_make_superset g c a).1
        then q ++ [ISS.add_vertex (ISS.copy g (ISS.can_make_superset g c a).2) a] else q)
      (ISS.can_make_superset g c a).2 e3 hs2 hv2
    simp only [List.foldl_cons]
    rw [k1]
    rw [e2] at k2
    by_cases hsc : ISS.scan_members g a c._vertices = true
    · refine ⟨ISS.add_vertex (ISS.copy g (ISS.can_make_superset g c a).2) a :: kids, ?_, ?_, ?_⟩
      · simp [e1, hsc]
      · simp only [List.map_cons, List.filter_cons, hsc, if_true, k2]
        simp [ISS.add_vertex, ISS.copy, e2]
      · intro k hk
        rcases List.mem_cons.mp hk with rfl | hk
        · exact cand_child g _ a e3 hs2 (by rw [e2]; exact hv a (List.mem_cons_self a l))
        · exact k3 k hk
    · refine ⟨kids, ?_, ?_, k3⟩
      · simp [e1, hsc]
      · simp only [List.filter_cons, hsc, k2]
        simp

theorem eraseIdx_map_members {α β : Type} (f : α → β) (l : List α) :
    ∀ i : Nat, (l.map f).eraseIdx i = (l.eraseIdx i).map f := by
  induction l with
  | nil => intro i; rfl
  | cons a l ih =>
    intro i
    cases i with
    | zero => rfl
    | succ j => simp [List.eraseIdx, ih j]

theorem getLast?_of_ne_nil (vs : List Nat) (h : vs ≠ []) : ∃ m, vs.getLast? = some m := by
  cases hl : vs.getLast? with
  | none => exact absurd (List.getLast?_eq_none_iff.mp hl) h
  | some m => exact ⟨m, rfl⟩

theorem theoretical_max_weight_spec (g : Graph) (c : ISS) (hc : Cand g c) :
    ∃ c1, ISS.theoretical_max_weight g c = some (bound_of g c._vertices, c1) ∧
      c1._vertices = c._vertices ∧ CacheOK g c1 := by
  obtain ⟨hne, _, hok⟩ := hc
  obtain ⟨m, hm⟩ := getLast?_of_ne_nil _ hne
  have hl : ∀ v ∈ ISS.loop_range g (m + 1), 1 ≤ v ∧ v ≤ g.get_num_vertices := by
    intro v hv
    have := (mem_loop_range g (m + 1) v).mp hv
    omega
  obtain ⟨f1, f2, f3⟩ := bound_fold_spec g _ hl 0 c hok
  refine ⟨_, ?_, f2, f3⟩
  simp only [ISS.theoretical_max_weight, ISS.next_unchecked_vertex, hm, Option.map_some']
  congr 1
  refine Prod.ext ?_ rfl
  simp only [f1, bound_of, qualifying, hm, ISS.get_weight, weight_of, f2, zero_add]

theorem push_supersets_spec (g : Graph) (c : ISS) (q : List ISS) (hc : Cand g c) :
    ∃ kids, ISS.push_supersets g c q = some (q ++ kids) ∧
      kids.map ISS._vertices =
        (qualifying g c._vertices).map (fun v => set_insert v c._vertices) ∧
      ∀ k ∈ kids, Cand g k := by
  obtain ⟨hne, hs, hok⟩ := hc
  obtain ⟨m, hm⟩ := getLast?_of_ne_nil _ hne
  have hl : ∀ v ∈ ISS.loop_range g (m + 1), 1 ≤ v ∧ v ≤ g.get_num_vertices := by
    intro v hv
    have := (mem_loop_range g (m + 1) v).mp hv
    omega
  have hv : ∀ v ∈ ISS.loop_range g (m + 1), ∀ u ∈ c._vertices, u < v := by
    intro v hv u hu
    have h1 := (mem_loop_range g (m + 1) v).mp hv
    have h2 := sorted_lt_getLast _ hs m hm u hu
    omega
  obtain ⟨kids, k1, k2, k3⟩ := push_fold_spec g _ hl q c hok hs hv
  refine ⟨kids, ?_, ?_, k3⟩
  · simp only [ISS.push_supersets, ISS.next_unchecked_vertex, hm, Option.map_some']
    rw [k1]
  · rw [k2]
    simp only [qualifying, hm]

theorem step_spec (g : Graph) (choice : Nat) (st : SearchState)
    (hinv : ∀ c ∈ st.unchecked, Cand g c) (hne : st.unchecked ≠ []) :
    ∃ st1, step g choice st = some st1 ∧ (∀ c ∈ st1.unchecked, Cand g c) ∧
      ref_step g choice st.members = some st1.members := by
  have hlen : 0 < st.unchecked.length := List.length_pos.mpr hne
  have hi : choice % st.unchecked.length < st.unchecked.length := Nat.mod_lt _ hlen
  have hget : st.unchecked[choice % st.unchecked.length]? =
      some (st.unchecked[choice % st.unchecked.length]) := List.getElem?_eq_getElem hi
  set iss := st.unchecked[choice % st.unchecked.length] with hiss
  have hmem : iss ∈ st.unchecked := List.getElem_mem hi
  have hc : Cand g iss := hinv iss hmem
  have hrest : ∀ c ∈ st.unchecked.eraseIdx (choice % st.unchecked.length), Cand g c :=
    fun c hcm => hinv c ((List.eraseIdx_sublist _ _).subset hcm)
  obtain ⟨c1, t1, t2, t3⟩ := theoretical_max_weight_spec g iss hc
  have hc1 : Cand g c1 := ⟨by rw [t2]; exact hc.1, by rw [t2]; exact hc.2.1, t3⟩
  obtain ⟨kids, p1, p2, p3⟩ := push_supersets_spec g c1
    (st.unchecked.eraseIdx (choice % st.unchecked.length)) hc1
  have hget2 : (st.unchecked.map ISS._vertices)[choice % st.unchecked.length]? =
      some iss._vertices := by
    rw [List.getElem?_map, hget]; rfl
  by_cases hb : bound_of g iss._vertices >
      (if ISS.get_weight g iss > st.best then ISS.get_weight g iss else st.best)
  · refine ⟨⟨if ISS.get_weight g iss > st.best then ISS.get_weight g iss else st.best,
        st.unchecked.eraseIdx (choice % st.unchecked.length) ++ kids⟩, ?_, ?_, ?_⟩
    · simp only [step, hget, t1, hb, if_true, p1]
    · intro c hcm
      rcases List.mem_append.mp hcm with h | h
      · exact hrest c h
      · exact p3 c h
    · have hb2 : bound_of g iss._vertices >
          (if weight_of g iss._vertices > st.best then weight_of g iss._vertices else st.best) := hb
      simp only [ref_step, SearchState.members, List.length_map, hget2, hb2, if_true,
        List.map_append, p2, t2, eraseIdx_map_members]
      rfl
  · refine ⟨⟨if ISS.get_weight g iss > st.best then ISS.get_weight g iss else st.best,
        st.unchecked.eraseIdx (choice % st.unchecked.length)⟩, ?_, hrest, ?_⟩
    · simp only [step, hget, t1, hb, if_false]
    · have hb2 : ¬ bound_of g iss._vertices >
          (if weight_of g iss._vertices > st.best then weight_of g iss._vertices else st.best) := hb
      simp only [ref_step, SearchState.members, List.length_map, hget2, hb2, if_false,
        eraseIdx_map_members]
      rfl

theorem if_gt_eq_max (w b : Int) : (if w > b then w else b) = max b w := by
  split_ifs with h
  · exact (max_eq_right (le_of_lt h)).symm
  · exact (max_eq_left (not_lt.mp h)).symm

theorem split_at_index {α : Type} (l : List α) (i : Nat) (h : i < l.length) :
    l = l.take i ++ l[i] :: l.drop (i + 1) ∧ l.eraseIdx i = l.take i ++ l.drop (i + 1) := by
  constructor
  · have h1 := List.take_append_drop i l
    have h2 : l.drop i = l[i] :: l.drop (i + 1) := by
      exact List.drop_eq_getElem_cons h
    rw [← h2]
    exact h1.symm
  · exact List.eraseIdx_eq_take_drop_succ l i

theorem ref_step_cases (g : Graph) (choice : Nat) (b : Int) (F : List (List Nat))
    (hne : F ≠ []) :
    ∃ l1 vs l2, F = l1 ++ vs :: l2 ∧
      ref_step g choice (b, F) = some (max b (weight_of g vs),
        (l1 ++ l2) ++ (if bound_of g vs > max b (weight_of g vs)
          then (qualifying g vs).map (fun v => set_insert v vs) else [])) := by
  have hlen : 0 < F.length := List.length_pos.mpr hne
  have hi : choice % F.length < F.length := Nat.mod_lt _ hlen
  obtain ⟨e1, e2⟩ := split_at_index F (choice % F.length) hi
  refine ⟨F.take (choice % F.length), F[choice % F.length], F.drop (choice % F.length + 1),
    e1, ?_⟩
  have hget : F[choice % F.length]? = some (F[choice % F.length]) := List.getElem?_eq_getElem hi
  simp only [ref_step, hget, if_gt_eq_max, e2]
  split_ifs <;> simp

theorem qualifying_spec (g : Graph) (vs : List Nat) (m : Nat) (hm : vs.getLast? = some m)
    (v : Nat) :
    v ∈ qualifying g vs ↔
      (m < v ∧ v ≤ g.get_num_vertices) ∧ ∀ u ∈ vs, g.are_neighbors u v = false := by
  simp only [qualifying, hm, List.mem_filter, mem_loop_range, scan_members_eq_true]
  constructor
  · rintro ⟨⟨h1, h2⟩, h3⟩
    exact ⟨⟨by omega, h2⟩, h3⟩
  · rintro ⟨⟨h1, h2⟩, h3⟩
    exact ⟨⟨by omega, h2⟩, h3⟩

theorem good_child (g : Graph) (vs : List Nat) (hg : GoodMembers g vs) (v : Nat)
    (hv : v ∈ qualifying g vs) :
    set_insert v vs = vs ++ [v] ∧ GoodMembers g (vs ++ [v]) ∧ ∀ u ∈ vs, u < v := by
  obtain ⟨hne, hs, hr, hp⟩ := hg
  obtain ⟨m, hm⟩ := getLast?_of_ne_nil _ hne
  obtain ⟨⟨q1, q2⟩, q3⟩ := (qualifying_spec g vs m hm v).mp hv
  have hlt : ∀ u ∈ vs, u < v := by
    intro u hu
    have := sorted_lt_getLast vs hs m hm u hu
    omega
  refine ⟨set_insert_of_lt v vs hlt, ⟨by simp, ?_, ?_, ?_⟩, hlt⟩
  · unfold List.Sorted
    rw [List.pairwise_append]
    refine ⟨hs, List.pairwise_singleton _ _, ?_⟩
    intro a ha b hb
    simp only [List.mem_singleton] at hb
    subst hb
    exact hlt a ha
  · intro u hu
    rcases List.mem_append.mp hu with h | h
    · exact hr u h
    · simp only [List.mem_singleton] at h
      subst h
      omega
  · rw [List.pairwise_append]
    refine ⟨hp, List.pairwise_singleton _ _, ?_⟩
    intro a ha b hb
    simp only [List.mem_singleton] at hb
    subst hb
    exact q3 a ha

/-- Every member list of the queue stays good. -/
theorem ref_step_good (g : Graph) (choice : Nat) (st st1 : Int × List (List Nat))
    (hg : ∀ vs ∈ st.2, GoodMembers g vs) (h : ref_step g choice st = some st1) :
    ∀ vs ∈ st1.2, GoodMembers g vs := by
  obtain ⟨b, F⟩ := st
  by_cases hne : F = []
  · subst hne
    simp [ref_step] at h
  obtain ⟨l1, vs, l2, e1, e2⟩ := ref_step_cases g choice b F hne
  rw [e2] at h
  simp only [Option.some.injEq] at h
  subst h
  intro ws hws
  simp only at hg
  have hvs : GoodMembers g vs := hg vs (by rw [e1]; simp)
  simp only [List.mem_append] at hws
  rcases hws with (h | h) | h
  · exact hg ws (by rw [e1]; simp [h])
  · exact hg ws (by rw [e1]; simp [h])
  · split_ifs at h with hb
    · obtain ⟨v, hv, rfl⟩ := List.mem_map.mp h
      obtain ⟨c1, c2, _⟩ := good_child g vs hvs v hv
      rw [c1]
      exact c2
    · simp at h

theorem weight_of_toFinset (g : Graph) (vs : List Nat) (hs : vs.Sorted (· < ·)) :
    total_weight g vs.toFinset = weight_of g vs := by
  rw [weight_of_eq_sum]
  unfold total_weight
  exact List.sum_toFinset g.get_weight (List.Sorted.nodup hs)

theorem pairwise_either {R : Nat → Nat → Prop} (l : List Nat) (h : l.Pairwise R) :
    ∀ a ∈ l, ∀ b ∈ l, a ≠ b → R a b ∨ R b a := by
  induction l with
  | nil => simp
  | cons x l ih =>
    rw [List.pairwise_cons] at h
    intro a ha b hb hab
    rcases List.mem_cons.mp ha with rfl | ha2
    · rcases List.mem_cons.mp hb with rfl | hb2
      · exact absurd rfl hab
      · exact Or.inl (h.1 b hb2)
    · rcases List.mem_cons.mp hb with rfl | hb2
      · exact Or.inr (h.1 a ha2)
      · exact ih h.2 a ha2 b hb2 hab

theorem good_independent (g : Graph) (hsym : g.symmetric) (vs : List Nat)
    (hg : GoodMembers g vs) :
    vs.toFinset ⊆ Finset.Icc 1 g.get_num_vertices ∧ Independent g vs.toFinset := by
  obtain ⟨_, hs, hr, hp⟩ := hg
  constructor
  · intro v hv
    have := hr v (List.mem_toFinset.mp hv)
    exact Finset.mem_Icc.mpr this
  · intro a ha b hb hab
    have ha2 := List.mem_toFinset.mp ha
    have hb2 := List.mem_toFinset.mp hb
    rcases pairwise_either vs hp a ha2 b hb2 hab with h | h
    · exact h
    · rw [hsym a b (hr a ha2).1 (hr a ha2).2 (hr b hb2).1 (hr b hb2).2]
      exact h

/-- The value of `best` is the weight of an independent set. -/
theorem ref_step_attained (g : Graph) (hsym : g.symmetric) (choice : Nat)
    (st st1 : Int × List (List Nat)) (hg : ∀ vs ∈ st.2, GoodMembers g vs)
    (hb : st.1 ∈ independent_weights g) (h : ref_step g choice st = some st1) :
    st1.1 ∈ independent_weights g := by
  obtain ⟨b, F⟩ := st
  by_cases hne : F = []
  · subst hne
    simp [ref_step] at h
  obtain ⟨l1, vs, l2, e1, e2⟩ := ref_step_cases g choice b F hne
  rw [e2] at h
  simp only [Option.some.injEq] at h
  subst h
  simp only at hg hb ⊢
  have hvs : GoodMembers g vs := hg vs (by rw [e1]; simp)
  rcases max_cases b (weight_of g vs) with ⟨h1, _⟩ | ⟨h1, _⟩
  · rw [h1]; exact hb
  · rw [h1]
    obtain ⟨i1, i2⟩ := good_independent g hsym vs hvs
    exact ⟨vs.toFinset, i1, i2, weight_of_toFinset g vs hvs.2.1⟩

/-- The value of `best` never decreases. -/
theorem ref_step_mono (g : Graph) (choice : Nat) (st st1 : Int × List (List Nat))
    (h : ref_step g choice st = some st1) : st.1 ≤ st1.1 := by
  obtain ⟨b, F⟩ := st
  by_cases hne : F = []
  · subst hne
    simp [ref_step] at h
  obtain ⟨l1, vs, l2, e1, e2⟩ := ref_step_cases g choice b F hne
  rw [e2] at h
  simp only [Option.some.injEq] at h
  subst h
  exact le_max_left _ _

/-- A candidate in the queue stays there until `best` has reached its
weight. -/
theorem ref_step_pending (g : Graph) (choice : Nat) (st st1 : Int × List (List Nat))
    (ws : List Nat) (hp : weight_of g ws ≤ st.1 ∨ ws ∈ st.2)
    (h : ref_step g choice st = some st1) :
    weight_of g ws ≤ st1.1 ∨ ws ∈ st1.2 := by
  obtain ⟨b, F⟩ := st
  by_cases hne : F = []
  · subst hne
    simp [ref_step] at h
  obtain ⟨l1, vs, l2, e1, e2⟩ := ref_step_cases g choice b F hne
  rw [e2] at h
  simp only [Option.some.injEq] at h
  subst h
  simp only at hp ⊢
  rcases hp with hp | hp
  · exact Or.inl (le_trans hp (le_max_left _ _))
  · rw [e1] at hp
    simp only [List.mem_append, List.mem_cons] at hp
    rcases hp with hp | rfl | hp
    · right; simp [hp]
    · left; exact le_max_right _ _
    · right; simp [hp]

theorem qualifying_nodup (g : Graph) (vs : List Nat) : (qualifying g vs).Nodup := by
  unfold qualifying
  cases vs.getLast? with
  | none => exact List.nodup_nil
  | some m => exact List.Nodup.filter _ (List.nodup_range' _ _)

/-- The bound of a candidate is at least the weight of every independent set
made of the candidate and later vertices, when the later vertices left out
weigh nothing negative. -/
theorem bound_admissible (g : Graph) (vs : List Nat) (hg : GoodMembers g vs)
    (T : Finset Nat) (hT1 : T ⊆ Finset.Icc 1 g.get_num_vertices) (hT2 : Independent g T)
    (hp : LeastMembers vs T)
    (hnn : ∀ v ∈ qualifying g vs, v ∉ T → 0 ≤ g.get_weight v) :
    total_weight g T ≤ bound_of g vs := by
  obtain ⟨hne, hs, hr, hpw⟩ := hg
  obtain ⟨m, hm⟩ := getLast?_of_ne_nil _ hne
  have hsub : vs.toFinset ⊆ T := fun v hv => hp.1 v (List.mem_toFinset.mp hv)
  have hsplit : total_weight g T =
      total_weight g (T \ vs.toFinset) + total_weight g vs.toFinset := by
    unfold total_weight
    exact (Finset.sum_sdiff hsub).symm
  have hQ : ((qualifying g vs).map g.get_weight).sum =
      ∑ v ∈ (qualifying g vs).toFinset, g.get_weight v :=
    (List.sum_toFinset g.get_weight (qualifying_nodup g vs)).symm
  have hin : T \ vs.toFinset ⊆ (qualifying g vs).toFinset := by
    intro t ht
    obtain ⟨ht1, ht2⟩ := Finset.mem_sdiff.mp ht
    have ht3 : t ∉ vs := fun h => ht2 (List.mem_toFinset.mpr h)
    have hlt : ∀ v ∈ vs, v < t := by
      rcases hp.2 t ht1 with h | h
      · exact absurd h ht3
      · exact h
    rw [List.mem_toFinset, qualifying_spec g vs m hm]
    refine ⟨⟨hlt m (List.mem_of_getLast?_eq_some hm), (Finset.mem_Icc.mp (hT1 ht1)).2⟩, ?_⟩
    intro u hu
    exact hT2 u (hp.1 u hu) t ht1 (by have := hlt u hu; omega)
  have hle : total_weight g (T \ vs.toFinset) ≤
      ∑ v ∈ (qualifying g vs).toFinset, g.get_weight v := by
    unfold total_weight
    apply Finset.sum_le_sum_of_subset_of_nonneg hin
    intro i hi hi2
    apply hnn i (List.mem_toFinset.mp hi)
    intro hiT
    apply hi2
    rw [Finset.mem_sdiff]
    refine ⟨hiT, ?_⟩
    intro hivs
    have h1 := (qualifying_spec g vs m hm i).mp (List.mem_toFinset.mp hi)
    have h2 := sorted_lt_getLast vs hs m hm i (List.mem_toFinset.mp hivs)
    omega
  rw [hsplit, weight_of_toFinset g vs hs, bound_of, hQ]
  linarith

theorem least_members_eq_or_next (g : Graph) (vs : List Nat) (hg : GoodMembers g vs)
    (T : Finset Nat) (hT1 : T ⊆ Finset.Icc 1 g.get_num_vertices) (hT2 : Independent g T)
    (hp : LeastMembers vs T) :
    vs.toFinset = T ∨ ∃ t ∈ qualifying g vs, LeastMembers (vs ++ [t]) T := by
  by_cases heq : vs.toFinset = T
  · exact Or.inl heq
  right
  obtain ⟨hne, hs, hr, hpw⟩ := hg
  obtain ⟨m, hm⟩ := getLast?_of_ne_nil _ hne
  have hsub : vs.toFinset ⊆ T := fun v hv => hp.1 v (List.mem_toFinset.mp hv)
  have hnonempty : (T \ vs.toFinset).Nonempty := by
    rw [Finset.nonempty_iff_ne_empty]
    intro hempty
    rw [Finset.sdiff_eq_empty_iff_subset] at hempty
    exact heq (Finset.Subset.antisymm hsub hempty)
  have htm := Finset.min'_mem _ hnonempty
  set t := (T \ vs.toFinset).min' hnonempty with ht
  obtain ⟨ht1, ht2⟩ := Finset.mem_sdiff.mp htm
  have ht3 : t ∉ vs := fun h => ht2 (List.mem_toFinset.mpr h)
  have hlt : ∀ v ∈ vs, v < t := by
    rcases hp.2 t ht1 with h | h
    · exact absurd h ht3
    · exact h
  refine ⟨t, ?_, ?_, ?_⟩
  · rw [qualifying_spec g vs m hm]
    refine ⟨⟨hlt m (List.mem_of_getLast?_eq_some hm), (Finset.mem_Icc.mp (hT1 ht1)).2⟩, ?_⟩
    intro u hu
    exact hT2 u (hp.1 u hu) t ht1 (by have := hlt u hu; omega)
  · intro v hv
    rcases List.mem_append.mp hv with h | h
    · exact hp.1 v h
    · simp only [List.mem_singleton] at h
      rw [h]; exact ht1
  · intro x hx
    by_cases hxv : x ∈ vs
    · left; exact List.mem_append.mpr (Or.inl hxv)
    by_cases hxt : x = t
    · left; rw [hxt]; simp
    right
    have hxd : x ∈ T \ vs.toFinset :=
      Finset.mem_sdiff.mpr ⟨hx, fun h => hxv (List.mem_toFinset.mp h)⟩
    have hle : t ≤ x := Finset.min'_le _ x hxd
    have hlt2 : t < x := lt_of_le_of_ne hle (Ne.symm hxt)
    intro v hv
    rcases List.mem_append.mp hv with h | h
    · exact lt_trans (hlt v h) hlt2
    · simp only [List.mem_singleton] at h
      rw [h]; exact hlt2

/-- An independent set stays accounted for, provided the bound of each of its
proper initial parts is at least its weight. -/
theorem ref_step_covered (g : Graph) (choice : Nat) (st st1 : Int × List (List Nat))
    (hg : ∀ vs ∈ st.2, GoodMembers g vs)
    (T : Finset Nat) (hT1 : T ⊆ Finset.Icc 1 g.get_num_vertices) (hT2 : Independent g T)
    (hadm : ∀ vs, GoodMembers g vs → LeastMembers vs T → vs.toFinset ≠ T →
      total_weight g T ≤ bound_of g vs)
    (hc : Covered g T st) (h : ref_step g choice st = some st1) : Covered g T st1 := by
  obtain ⟨b, F⟩ := st
  by_cases hne : F = []
  · subst hne
    simp [ref_step] at h
  obtain ⟨l1, vs, l2, e1, e2⟩ := ref_step_cases g choice b F hne
  rw [e2] at h
  simp only [Option.some.injEq] at h
  subst h
  simp only at hg
  unfold Covered at hc ⊢
  simp only at hc ⊢
  rcases hc with hc | ⟨ws, hws, hpre⟩
  · exact Or.inl (le_trans hc (le_max_left _ _))
  rw [e1] at hws
  simp only [List.mem_append, List.mem_cons] at hws
  rcases hws with hws | rfl | hws
  · right; exact ⟨ws, by simp [hws], hpre⟩
  · have hgood : GoodMembers g ws := hg ws (by rw [e1]; simp)
    rcases least_members_eq_or_next g ws hgood T hT1 hT2 hpre with heq | ⟨t, ht, htp⟩
    · left
      rw [← heq, weight_of_toFinset g ws hgood.2.1]
      exact le_max_right _ _
    · by_cases hb : bound_of g ws > max b (weight_of g ws)
      · right
        refine ⟨ws ++ [t], ?_, htp⟩
        simp only [hb, if_true, List.mem_append, List.mem_map]
        right
        exact ⟨t, ht, (good_child g ws hgood t ht).1⟩
      · left
        have hne2 : ws.toFinset ≠ T := by
          intro heq
          have h1 : t ∈ T := htp.1 t (by simp)
          rw [← heq] at h1
          have h2 := (good_child g ws hgood t ht).2.2 t (List.mem_toFinset.mp h1)
          omega
        exact le_trans (hadm ws hgood hpre hne2) (not_lt.mp hb)
  · right; exact ⟨ws, by simp [hws], hpre⟩

theorem sum_pow_range (n : Nat) : ∀ (d m : Nat), n = m + d →
    ((List.range' (m + 1) d).map (fun v => 2 ^ (n - v))).sum + 1 = 2 ^ d := by
  intro d
  induction d with
  | zero => intro m _; simp
  | succ d ih =>
    intro m hn
    have h1 := ih (m + 1) (by omega)
    have h2 : n - (m + 1) = d := by omega
    simp only [List.range'_succ, List.map_cons, List.sum_cons, h2]
    rw [pow_succ]
    omega

theorem sum_filter_le (f : Nat → Nat) (p : Nat → Bool) (l : List Nat) :
    ((l.filter p).map f).sum ≤ (l.map f).sum := by
  induction l with
  | nil => simp
  | cons a l ih =>
    by_cases h : p a = true
    · simp only [List.filter_cons, h, if_true, List.map_cons, List.sum_cons]
      omega
    · simp only [List.filter_cons, h, List.map_cons, List.sum_cons]
      simp only [Bool.false_eq_true, if_false]
      omega

theorem subtree_size_pos (n : Nat) (vs : List Nat) : 0 < subtree_size n vs := by
  unfold subtree_size
  exact Nat.pos_pow_of_pos _ (by norm_num)

theorem children_size_lt (g : Graph) (vs : List Nat) (hg : GoodMembers g vs) :
    remaining g.get_num_vertices ((qualifying g vs).map (fun v => set_insert v vs)) <
      subtree_size g.get_num_vertices vs := by
  obtain ⟨m, hm⟩ := getLast?_of_ne_nil _ hg.1
  have h1 : remaining g.get_num_vertices ((qualifying g vs).map (fun v => set_insert v vs)) =
      ((qualifying g vs).map (fun v => 2 ^ (g.get_num_vertices - v))).sum := by
    unfold remaining
    rw [List.map_map]
    congr 1
    apply List.map_congr_left
    intro v hv
    simp only [Function.comp, (good_child g vs hg v hv).1, subtree_size]
    simp
  rw [h1]
  have h2 : ((qualifying g vs).map (fun v => 2 ^ (g.get_num_vertices - v))).sum ≤
      ((ISS.loop_range g (m + 1)).map (fun v => 2 ^ (g.get_num_vertices - v))).sum := by
    simp only [qualifying, hm]
    exact sum_filter_le _ _ _
  have h3 : subtree_size g.get_num_vertices vs = 2 ^ (g.get_num_vertices - m) := by
    simp [subtree_size, hm]
  rw [h3]
  by_cases hmn : m < g.get_num_vertices
  · have h4 := sum_pow_range g.get_num_vertices (g.get_num_vertices - m) m (by omega)
    have h5 : g.get_num_vertices + 1 - (m + 1) = g.get_num_vertices - m := by omega
    unfold ISS.loop_range at h2
    rw [h5] at h2
    omega
  · have h5 : g.get_num_vertices + 1 - (m + 1) = 0 := by omega
    unfold ISS.loop_range at h2
    rw [h5] at h2
    simp only [List.range'_zero, List.map_nil, List.sum_nil] at h2
    have : 0 < 2 ^ (g.get_num_vertices - m) := Nat.pos_pow_of_pos _ (by norm_num)
    omega

/-- Every iteration lowers the number of candidates that can still leave the
queue. -/
theorem ref_step_remaining (g : Graph) (choice : Nat) (st st1 : Int × List (List Nat))
    (hg : ∀ vs ∈ st.2, GoodMembers g vs) (h : ref_step g choice st = some st1) :
    remaining g.get_num_vertices st1.2 < remaining g.get_num_vertices st.2 := by
  obtain ⟨b, F⟩ := st
  by_cases hne : F = []
  · subst hne
    simp [ref_step] at h
  obtain ⟨l1, vs, l2, e1, e2⟩ := ref_step_cases g choice b F hne
  rw [e2] at h
  simp only [Option.some.injEq] at h
  subst h
  simp only at hg ⊢
  have hvs : GoodMembers g vs := hg vs (by rw [e1]; simp)
  have hk := children_size_lt g vs hvs
  have hpos := subtree_size_pos g.get_num_vertices vs
  rw [e1]
  unfold remaining at hk ⊢
  split_ifs
  · simp only [List.map_append, List.sum_append, List.map_cons, List.sum_cons] at hk ⊢
    omega
  · simp only [List.map_append, List.sum_append, List.map_cons, List.sum_cons, List.map_nil,
      List.sum_nil]
    omega

theorem remaining_pos_of_ne_nil (n : Nat) (F : List (List Nat)) (h : F ≠ []) :
    0 < remaining n F := by
  cases F with
  | nil => exact absurd rfl h
  | cons a l =>
    have := subtree_size_pos n a
    simp only [remaining, List.map_cons, List.sum_cons]
    omega

/-- From a state whose candidates are well formed the loop returns under every
schedule that is long enough, and a property that survives every iteration
holds of the value returned. -/
theorem search_loop_spec (g : Graph) (P : Int × List (List Nat) → Prop)
    (hP : ∀ choice a a1, (∀ vs ∈ a.2, GoodMembers g vs) → P a →
      ref_step g choice a = some a1 → P a1) :
    ∀ (schedule : List Nat) (st : SearchState),
      (∀ c ∈ st.unchecked, Cand g c) → (∀ vs ∈ st.members.2, GoodMembers g vs) →
      P st.members → remaining g.get_num_vertices st.members.2 ≤ schedule.length →
      ∃ r, search_loop g schedule st = some r ∧ P (r, []) := by
  intro schedule
  induction schedule with
  | nil =>
    intro st _ _ hp hrem
    by_cases hne : st.unchecked = []
    · refine ⟨st.best, by simp [search_loop, hne], ?_⟩
      have : st.members = (st.best, []) := by simp [SearchState.members, hne]
      rw [← this]; exact hp
    · have : st.members.2 ≠ [] := by simpa [SearchState.members] using hne
      have := remaining_pos_of_ne_nil g.get_num_vertices _ this
      simp only [List.length_nil] at hrem
      omega
  | cons choice schedule ih =>
    intro st hc hg hp hrem
    by_cases hne : st.unchecked = []
    · refine ⟨st.best, by simp [search_loop, hne], ?_⟩
      have : st.members = (st.best, []) := by simp [SearchState.members, hne]
      rw [← this]; exact hp
    · obtain ⟨st1, s1, s2, s3⟩ := step_spec g choice st hc hne
      have hg1 := ref_step_good g choice _ _ hg s3
      have hp1 := hP choice _ _ hg hp s3
      have hr1 := ref_step_remaining g choice _ _ hg s3
      simp only [List.length_cons] at hrem
      obtain ⟨r, r1, r2⟩ := ih st1 s2 hg1 hp1 (by omega)
      refine ⟨r, ?_, r2⟩
      have hemp : st.unchecked.isEmpty = false := by
        cases hst : st.unchecked with
        | nil => exact absurd hst hne
        | cons _ _ => rfl
      simp only [search_loop, hemp, s1, Option.bind]
      simpa using r1

theorem cand_singleton (g : Graph) (v : Nat) : Cand g ((ISS.new g).add_vertex v) := by
  refine ⟨by simp [ISS.add_vertex, ISS.new, set_insert], ?_, ?_⟩
  · simp [ISS.add_vertex, ISS.new, set_insert]
  · intro u h1 h2
    left
    simp [ISS.add_vertex, ISS.new, h1, h2]

theorem seed_fold_spec (g : Graph) (l : List Nat) :
    ∀ st0 : SearchState,
      let st := l.foldl (fun (st : SearchState) vertex =>
        { best := if ((ISS.new g).add_vertex vertex).get_weight g > st.best
            then ((ISS.new g).add_vertex vertex).get_weight g else st.best
          unchecked := st.unchecked ++ [(ISS.new g).add_vertex vertex] }) st0
      st.unchecked.map ISS._vertices = st0.unchecked.map ISS._vertices ++ l.map (fun v => [v]) ∧
      ((∀ c ∈ st0.unchecked, Cand g c) → ∀ c ∈ st.unchecked, Cand g c) ∧
      st0.best ≤ st.best ∧ (∀ v ∈ l, g.get_weight v ≤ st.best) ∧
      (st.best = st0.best ∨ ∃ v ∈ l, st.best = g.get_weight v) := by
  induction l with
  | nil => intro st0; simp
  | cons a l ih =>
    intro st0
    have hw : ((ISS.new g).add_vertex a).get_weight g = g.get_weight a := by
      simp [ISS.get_weight, ISS.add_vertex, ISS.new, set_insert]
    simp only [List.foldl_cons]
    obtain ⟨i1, i2, i3, i4, i5⟩ := ih
      { best := if ((ISS.new g).add_vertex a).get_weight g > st0.best
          then ((ISS.new g).add_vertex a).get_weight g else st0.best
        unchecked := st0.unchecked ++ [(ISS.new g).add_vertex a] }
    simp only [hw, if_gt_eq_max] at i1 i2 i3 i4 i5 ⊢
    refine ⟨?_, ?_, ?_, ?_, ?_⟩
    · rw [i1]
      simp [ISS.add_vertex, ISS.new, set_insert]
    · intro h0
      apply i2
      intro c hc
      rcases List.mem_append.mp hc with h | h
      · exact h0 c h
      · simp only [List.mem_singleton] at h
        rw [h]; exact cand_singleton g a
    · exact le_trans (le_max_left _ _) i3
    · intro v hv
      rcases List.mem_cons.mp hv with rfl | h
      · exact le_trans (le_max_right _ _) i3
      · exact i4 v h
    · rcases i5 with h | ⟨v, hv, h⟩
      · rcases max_cases st0.best (g.get_weight a) with ⟨h1, _⟩ | ⟨h1, _⟩
        · left; rw [h, h1]
        · right; exact ⟨a, List.mem_cons_self a l, by rw [h, h1]⟩
      · right; exact ⟨v, List.mem_cons_of_mem a hv, h⟩

theorem seed_spec (g : Graph) :
    (seed g).members.2 = (List.range' 1 g.get_num_vertices).map (fun v => [v]) ∧
    (∀ c ∈ (seed g).unchecked, Cand g c) ∧
    0 ≤ (seed g).best ∧
    (∀ v, 1 ≤ v → v ≤ g.get_num_vertices → g.get_weight v ≤ (seed g).best) ∧
    ((seed g).best = 0 ∨
      ∃ v, (1 ≤ v ∧ v ≤ g.get_num_vertices) ∧ (seed g).best = g.get_weight v) := by
  obtain ⟨i1, i2, i3, i4, i5⟩ := seed_fold_spec g (List.range' 1 g.get_num_vertices)
    { best := 0, unchecked := [] }
  have hmem : ∀ v, v ∈ List.range' 1 g.get_num_vertices ↔ 1 ≤ v ∧ v ≤ g.get_num_vertices := by
    intro v
    rw [List.mem_range']
    constructor
    · rintro ⟨i, hi, rfl⟩; omega
    · rintro ⟨h1, h2⟩; exact ⟨v - 1, by omega, by omega⟩
  refine ⟨?_, ?_, i3, ?_, ?_⟩
  · simpa [SearchState.members] using i1
  · exact i2 (by simp)
  · intro v h1 h2
    exact i4 v ((hmem v).mpr ⟨h1, h2⟩)
  · rcases i5 with h | ⟨v, hv, h⟩
    · left; exact h
    · right; exact ⟨v, (hmem v).mp hv, h⟩

theorem seed_members_iff (g : Graph) (vs : List Nat) :
    vs ∈ (seed g).members.2 ↔ ∃ v, (1 ≤ v ∧ v ≤ g.get_num_vertices) ∧ vs = [v] := by
  rw [(seed_spec g).1, List.mem_map]
  constructor
  · rintro ⟨v, hv, rfl⟩
    rw [List.mem_range'] at hv
    obtain ⟨i, hi, rfl⟩ := hv
    exact ⟨1 + 1 * i, by omega, rfl⟩
  · rintro ⟨v, ⟨h1, h2⟩, rfl⟩
    exact ⟨v, List.mem_range'.mpr ⟨v - 1, by omega, by omega⟩, rfl⟩

theorem seed_good (g : Graph) : ∀ vs ∈ (seed g).members.2, GoodMembers g vs := by
  intro vs hvs
  obtain ⟨v, hv, rfl⟩ := (seed_members_iff g vs).mp hvs
  refine ⟨by simp, by simp, ?_, by simp⟩
  intro u hu
  simp only [List.mem_singleton] at hu
  rw [hu]; exact hv

theorem seed_remaining (g : Graph) :
    remaining g.get_num_vertices (seed g).members.2 = 2 ^ g.get_num_vertices - 1 := by
  rw [(seed_spec g).1]
  unfold remaining
  rw [List.map_map]
  have h := sum_pow_range g.get_num_vertices g.get_num_vertices 0 (by omega)
  have h2 : (subtree_size g.get_num_vertices ∘ fun v => [v]) =
      fun v => 2 ^ (g.get_num_vertices - v) := by
    funext v
    simp [subtree_size]
  rw [h2]
  simp only [zero_add] at h
  omega

/-- A property of the best weight and the member lists of the queue that holds
after the seeding and survives every iteration holds when the search returns,
and the search returns under every schedule that is long enough. -/
theorem max_iss_weight_inv (g : Graph) (P : Int × List (List Nat) → Prop)
    (hP : ∀ choice a a1, (∀ vs ∈ a.2, GoodMembers g vs) → P a →
      ref_step g choice a = some a1 → P a1)
    (h0 : P (seed g).members) (schedule : List Nat)
    (hlen : 2 ^ g.get_num_vertices - 1 ≤ schedule.length) :
    ∃ r, g.max_iss_weight schedule = some r ∧ P (r, []) := by
  unfold Graph.max_iss_weight
  apply search_loop_spec g P hP schedule (seed g) (seed_spec g).2.1 (seed_good g) h0
  rw [seed_remaining]
  exact hlen

theorem independent_weights_zero (g : Graph) : (0 : Int) ∈ independent_weights g :=
  ⟨∅, by simp, by simp [Independent], by simp [total_weight]⟩

theorem independent_weights_single (g : Graph) (v : Nat) (h1 : 1 ≤ v)
    (h2 : v ≤ g.get_num_vertices) : g.get_weight v ∈ independent_weights g := by
  refine ⟨{v}, ?_, ?_, by simp [total_weight]⟩
  · intro u hu
    simp only [Finset.mem_singleton] at hu
    rw [hu]; exact Finset.mem_Icc.mpr ⟨h1, h2⟩
  · intro a ha b hb hab
    simp only [Finset.mem_singleton] at ha hb
    rw [ha, hb] at hab
    exact absurd rfl hab

theorem seed_attained (g : Graph) : (seed g).members.1 ∈ independent_weights g := by
  rcases (seed_spec g).2.2.2.2 with h | ⟨v, hv, h⟩
  · show (seed g).best ∈ _
    rw [h]; exact independent_weights_zero g
  · show (seed g).best ∈ _
    rw [h]; exact independent_weights_single g v hv.1 hv.2

theorem seed_covered (g : Graph) (T : Finset Nat)
    (hT : T ⊆ Finset.Icc 1 g.get_num_vertices) : Covered g T (seed g).members := by
  by_cases hne : T.Nonempty
  · right
    have hm := Finset.min'_mem T hne
    refine ⟨[T.min' hne], ?_, ?_, ?_⟩
    · rw [seed_members_iff]
      exact ⟨T.min' hne, Finset.mem_Icc.mp (hT hm), rfl⟩
    · intro v hv
      simp only [List.mem_singleton] at hv
      rw [hv]; exact hm
    · intro t ht
      by_cases h : t = T.min' hne
      · left; simp [h]
      · right
        intro v hv
        simp only [List.mem_singleton] at hv
        rw [hv]
        exact lt_of_le_of_ne (Finset.min'_le T t ht) (Ne.symm h)
  · left
    rw [Finset.not_nonempty_iff_eq_empty] at hne
    show total_weight g T ≤ (seed g).best
    rw [hne]
    simpa [total_weight] using (seed_spec g).2.2.1

/-! ## Graph operations -/

theorem are_neighbors_add_edge (g : Graph) (v1 v2 i j : Nat) :
    (g.add_edge v1 v2).are_neighbors i j =
      (decide ((i = v1 ∧ j = v2) ∨ (i = v2 ∧ j = v1)) || g.are_neighbors i j) := by
  unfold Graph.add_edge Graph.are_neighbors
  simp only [Function.update_apply]
  by_cases h1 : i = v1 <;> by_cases h2 : j = v2 <;> by_cases h3 : i = v2 <;>
    by_cases h4 : j = v1 <;> simp [h1, h2, h3, h4] <;> (try subst_vars) <;> simp_all

theorem get_weight_add_edge (g : Graph) (v1 v2 v : Nat) :
    (g.add_edge v1 v2).get_weight v = g.get_weight v := rfl

theorem get_num_vertices_add_edge (g : Graph) (v1 v2 : Nat) :
    (g.add_edge v1 v2).get_num_vertices = g.get_num_vertices := rfl

theorem are_neighbors_set_weight (g : Graph) (v : Nat) (w : Int) (i j : Nat) :
    (g.set_weight v w).are_neighbors i j = g.are_neighbors i j := rfl

theorem get_num_vertices_run_ops (ops : List GraphOp) :
    ∀ g : Graph, (g.run_ops ops).get_num_vertices = g.get_num_vertices := by
  induction ops with
  | nil => intro g; rfl
  | cons op ops ih =>
    intro g
    show ((GraphOp.apply g op).run_ops ops).get_num_vertices = _
    rw [ih]
    cases op <;> rfl

theorem symmetric_apply (g : Graph) (op : GraphOp) (h : g.symmetric) :
    (GraphOp.apply g op).symmetric := by
  cases op with
  | set_weight v w => exact h
  | add_edge v1 v2 =>
    intro a b ha1 ha2 hb1 hb2
    show (g.add_edge v1 v2).are_neighbors a b = (g.add_edge v1 v2).are_neighbors b a
    rw [are_neighbors_add_edge, are_neighbors_add_edge, h a b ha1 ha2 hb1 hb2]
    congr 1
    rw [decide_eq_decide]
    tauto

theorem symmetric_run_ops (ops : List GraphOp) :
    ∀ g : Graph, g.symmetric → (g.run_ops ops).symmetric := by
  induction ops with
  | nil => intro g h; exact h
  | cons op ops ih =>
    intro g h
    exact ih (GraphOp.apply g op) (symmetric_apply g op h)

theorem symmetric_create (n : Nat) (w0 : Nat → Int) (a0 : Nat → Nat → Bool) :
    (Graph.create n w0 a0).symmetric := by
  intro a b ha1 ha2 hb1 hb2
  have ha2' : a ≤ n := ha2
  have hb2' : b ≤ n := hb2
  simp [Graph.are_neighbors, Graph.create, ha1, ha2', hb1, hb2']

/-! ## The result of the search -/

/-- The result of the search under a schedule that is long enough: it is at
least 0, at least every vertex weight and at least the weight of every
independent set whose proper initial parts all have a bound that is at least that
weight; on a symmetric graph it is the weight of an independent set. -/
theorem max_iss_weight_result (g : Graph) (schedule : List Nat)
    (hlen : 2 ^ g.get_num_vertices - 1 ≤ schedule.length) :
    ∃ r, g.max_iss_weight schedule = some r ∧
      (g.symmetric → r ∈ independent_weights g) ∧ 0 ≤ r ∧
      (∀ v, 1 ≤ v → v ≤ g.get_num_vertices → g.get_weight v ≤ r) ∧
      ∀ T : Finset Nat, T ⊆ Finset.Icc 1 g.get_num_vertices → Independent g T →
        (∀ vs, GoodMembers g vs → LeastMembers vs T → vs.toFinset ≠ T →
          total_weight g T ≤ bound_of g vs) →
        total_weight g T ≤ r := by
  obtain ⟨r, h1, h2, h3, h4⟩ := max_iss_weight_inv g
    (fun a => (g.symmetric → a.1 ∈ independent_weights g) ∧ (seed g).best ≤ a.1 ∧
      ∀ T : Finset Nat, T ⊆ Finset.Icc 1 g.get_num_vertices → Independent g T →
        (∀ vs, GoodMembers g vs → LeastMembers vs T → vs.toFinset ≠ T →
          total_weight g T ≤ bound_of g vs) → Covered g T a)
    (by
      intro choice a a1 hg ⟨p1, p2, p3⟩ hstep
      refine ⟨fun hsym => ref_step_attained g hsym choice a a1 hg (p1 hsym) hstep,
        le_trans p2 (ref_step_mono g choice a a1 hstep), ?_⟩
      intro T hT1 hT2 hadm
      exact ref_step_covered g choice a a1 hg T hT1 hT2 hadm (p3 T hT1 hT2 hadm) hstep)
    ⟨fun _ => seed_attained g, le_refl _, fun T hT1 _ _ => seed_covered g T hT1⟩
    schedule hlen
  refine ⟨r, h1, h2, le_trans (seed_spec g).2.2.1 h3, ?_, ?_⟩
  · intro v hv1 hv2
    exact le_trans ((seed_spec g).2.2.2.1 v hv1 hv2) h3
  · intro T hT1 hT2 hadm
    rcases h4 T hT1 hT2 hadm with h | ⟨vs, hvs, _⟩
    · exact h
    · simp at hvs

/-- On a symmetric graph in which every vertex from 2 on has a weight that is
not negative, the search returns the greatest weight of an independent
set. -/
theorem max_iss_weight_greatest (g : Graph) (hsym : g.symmetric)
    (hw : ∀ v, 2 ≤ v → v ≤ g.get_num_vertices → 0 ≤ g.get_weight v)
    (schedule : List Nat) (hlen : 2 ^ g.get_num_vertices - 1 ≤ schedule.length) :
    ∃ r, g.max_iss_weight schedule = some r ∧ IsGreatest (independent_weights g) r := by
  obtain ⟨r, h1, h2, _, _, h5⟩ := max_iss_weight_result g schedule hlen
  refine ⟨r, h1, h2 hsym, ?_⟩
  rintro w ⟨T, hT1, hT2, rfl⟩
  apply h5 T hT1 hT2
  intro vs hg hp _
  apply bound_admissible g vs hg T hT1 hT2 hp
  intro v hv _
  obtain ⟨m, hm⟩ := getLast?_of_ne_nil _ hg.1
  have hq := (qualifying_spec g vs m hm v).mp hv
  have hm1 := hg.2.2.1 m (List.mem_of_getLast?_eq_some hm)
  exact hw v (by omega) hq.1.2

theorem weights_5_m2_3_le (g : Graph) (hn : g.get_num_vertices = 3)
    (h1 : g.get_weight 1 = 5) (h2 : g.get_weight 2 = -2) (h3 : g.get_weight 3 = 3) :
    ∀ r ∈ independent_weights g, r ≤ 8 := by
  rintro r ⟨S, hS1, _, rfl⟩
  rw [hn] at hS1
  calc total_weight g S
      ≤ ∑ v ∈ S, max (g.get_weight v) 0 := Finset.sum_le_sum (fun v _ => le_max_left _ _)
    _ ≤ ∑ v ∈ Finset.Icc 1 3, max (g.get_weight v) 0 :=
        Finset.sum_le_sum_of_subset_of_nonneg hS1 (fun v _ _ => le_max_right _ _)
    _ = 8 := by
        have : Finset.Icc 1 3 = ({1, 2, 3} : Finset Nat) := by decide
        rw [this]
        simp [h1, h2, h3]

theorem card_le_of_no_consecutive (n : Nat) (S : Finset Nat) (hS : S ⊆ Finset.Icc 1 n)
    (hno : ∀ a ∈ S, a + 1 ∉ S) : S.card ≤ (n + 1) / 2 := by
  have hdisj : Disjoint S (S.image (· + 1)) := by
    rw [Finset.disjoint_left]
    intro a ha ha2
    obtain ⟨b, hb, hba⟩ := Finset.mem_image.mp ha2
    subst hba
    exact hno b hb ha
  have hsub : S ∪ S.image (· + 1) ⊆ Finset.Icc 1 (n + 1) := by
    intro x hx
    rcases Finset.mem_union.mp hx with h | h
    · have := Finset.mem_Icc.mp (hS h)
      exact Finset.mem_Icc.mpr ⟨this.1, by omega⟩
    · obtain ⟨b, hb, hba⟩ := Finset.mem_image.mp h
      subst hba
      have := Finset.mem_Icc.mp (hS hb)
      exact Finset.mem_Icc.mpr ⟨by omega, by omega⟩
  have hcard := Finset.card_le_card hsub
  rw [Finset.card_union_of_disjoint hdisj,
    Finset.card_image_of_injective S (fun a b h => by simpa using h)] at hcard
  simp only [Nat.card_Icc, Nat.add_sub_cancel] at hcard
  omega

theorem total_weight_eq_card (g : Graph) (S : Finset Nat)
    (hS : S ⊆ Finset.Icc 1 g.get_num_vertices)
    (hw : ∀ v, 1 ≤ v → v ≤ g.get_num_vertices → g.get_weight v = 1) :
    total_weight g S = (S.card : Int) := by
  unfold total_weight
  rw [Finset.sum_congr rfl (fun v hv => by
    have := Finset.mem_Icc.mp (hS hv)
    exact hw v this.1 this.2)]
  simp

theorem are_neighbors_add_edges (edges : List (Nat × Nat)) :
    ∀ (g : Graph) (x y : Nat),
      (g.add_edges edges).are_neighbors x y =
        (g.are_neighbors x y || decide ((x, y) ∈ edges ∨ (y, x) ∈ edges)) := by
  induction edges with
  | nil => intro g x y; simp [Graph.add_edges]
  | cons e edges ih =>
    intro g x y
    show ((g.add_edge e.1 e.2).add_edges edges).are_neighbors x y = _
    rw [ih, are_neighbors_add_edge]
    obtain ⟨e1, e2⟩ := e
    by_cases h : g.are_neighbors x y = true
    · simp [h]
    · simp only [Bool.not_eq_true] at h
      simp only [h, Bool.or_false, Bool.false_or, List.mem_cons, Prod.mk.injEq]
      rw [← Bool.decide_or, decide_eq_decide]
      tauto

theorem lt_of_sq_le (n k : Nat) (hk : 2 ≤ k) (hkk : k * k ≤ n) : k < n := by
  nlinarith

theorem divisors_seen_succ_dvd (n k : Nat) (hk : 2 ≤ k) (hkk : k * k ≤ n) (hd : k ∣ n) :
    divisors_seen n (k + 1) = insert k (insert (n / k) (divisors_seen n k)) := by
  have hn : 0 < n := by nlinarith
  have hkn : k < n := lt_of_sq_le n k hk hkk
  have hle : k ≤ n / k := (Nat.le_div_iff_mul_le (by omega)).mpr hkk
  ext d
  simp only [divisors_seen, Finset.mem_filter, Nat.mem_properDivisors, Finset.mem_insert]
  constructor
  · rintro ⟨⟨h1, h2⟩, h3, h4⟩
    by_cases hdk : d = k
    · exact Or.inl hdk
    by_cases hdk2 : n / d = k
    · right; left
      have : n = d * k := by
        rw [← hdk2]; exact (Nat.mul_div_cancel' h1).symm
      rw [this, Nat.mul_div_cancel _ (by omega)]
    · right; right
      exact ⟨⟨h1, h2⟩, h3, by omega⟩
  · rintro (rfl | rfl | ⟨⟨h1, h2⟩, h3, h4⟩)
    · exact ⟨⟨hd, hkn⟩, by omega, by omega⟩
    · refine ⟨⟨Nat.div_dvd_of_dvd hd, Nat.div_lt_self hn (by omega)⟩, by omega, ?_⟩
      right
      rw [Nat.div_div_self hd (by omega)]
      omega
    · exact ⟨⟨h1, h2⟩, h3, by omega⟩

theorem divisors_seen_not_mem (n k : Nat) (hk : 2 ≤ k) (hkk : k * k ≤ n) (hd : k ∣ n) :
    k ∉ divisors_seen n k ∧ n / k ∉ divisors_seen n k := by
  have hle : k ≤ n / k := (Nat.le_div_iff_mul_le (by omega)).mpr hkk
  have hself : n / (n / k) = k := Nat.div_div_self hd (by nlinarith)
  simp only [divisors_seen, Finset.mem_filter, not_and, not_or]
  constructor
  · intro _ _
    omega
  · intro _ _
    omega

theorem divisors_seen_succ_not_dvd (n k : Nat) (hd : ¬ k ∣ n) :
    divisors_seen n (k + 1) = divisors_seen n k := by
  ext d
  simp only [divisors_seen, Finset.mem_filter, Nat.mem_properDivisors]
  constructor
  · rintro ⟨⟨h1, h2⟩, h3, h4⟩
    refine ⟨⟨h1, h2⟩, h3, ?_⟩
    have e1 : d ≠ k := fun h => hd (h ▸ h1)
    have e2 : n / d ≠ k := fun h => hd (h ▸ Nat.div_dvd_of_dvd h1)
    omega
  · rintro ⟨⟨h1, h2⟩, h3, h4⟩
    exact ⟨⟨h1, h2⟩, h3, by omega⟩

theorem divisors_seen_all (n k : Nat) (hkk : n < k * k) :
    divisors_seen n k = (Nat.properDivisors n).filter (fun d => 1 < d) := by
  ext d
  simp only [divisors_seen, Finset.mem_filter, Nat.mem_properDivisors]
  constructor
  · rintro ⟨h1, h3, _⟩
    exact ⟨h1, h3⟩
  · rintro ⟨⟨h1, h2⟩, h3⟩
    refine ⟨⟨h1, h2⟩, h3, ?_⟩
    by_contra hcon
    push_neg at hcon
    have := Nat.mul_le_mul hcon.1 hcon.2
    rw [Nat.mul_div_cancel' h1] at this
    omega

theorem sum_properDivisors_split (n : Nat) (hn : 2 ≤ n) :
    ∑ d ∈ Nat.properDivisors n, d =
      1 + ∑ d ∈ (Nat.properDivisors n).filter (fun d => 1 < d), d := by
  have h1 : 1 ∈ Nat.properDivisors n := Nat.mem_properDivisors.mpr ⟨one_dvd n, by omega⟩
  have hfil : (Nat.properDivisors n).filter (fun d => 1 < d) = (Nat.properDivisors n).erase 1 := by
    ext d
    simp only [Finset.mem_filter, Finset.mem_erase, Nat.mem_properDivisors]
    constructor
    · rintro ⟨h, h2⟩; exact ⟨by omega, h⟩
    · rintro ⟨h2, h⟩
      refine ⟨h, ?_⟩
      have : 0 < d := Nat.pos_of_dvd_of_pos h.1 (by omega)
      omega
  rw [hfil, ← Finset.add_sum_erase _ _ h1]

theorem divisor_loop_spec (n : Nat) :
    ∀ (fuel k : Nat) (s : Int), 2 ≤ k → n + 2 ≤ fuel + k →
      s = 1 + ((∑ d ∈ divisors_seen n k, d : Nat) : Int) →
      divisor_loop (n : Int) fuel (k : Int) s =
        some (1 + ((∑ d ∈ (Nat.properDivisors n).filter (fun d => 1 < d), d : Nat) : Int)) := by
  intro fuel
  induction fuel with
  | zero =>
    intro k s hk hf hs
    have hkk : n < k * k := by nlinarith
    have hkk' : ¬ ((k : Int) * k ≤ n) := by
      have : ((n : Nat) : Int) < ((k * k : Nat) : Int) := by exact_mod_cast hkk
      push_cast at this
      omega
    simp only [divisor_loop, hkk', if_false]
    rw [hs, divisors_seen_all n k hkk]
  | succ fuel ih =>
    intro k s hk hf hs
    by_cases hkk : k * k ≤ n
    · have hkk' : (k : Int) * k ≤ n := by exact_mod_cast hkk
      have hnext := ih (k + 1)
      simp only [divisor_loop, hkk', if_true]
      have hmod : (n : Int).tmod k = ((n % k : Nat) : Int) := (Int.ofNat_tmod n k).symm
      have hdiv : (n : Int).tdiv k = ((n / k : Nat) : Int) := (Int.ofNat_tdiv n k).symm
      have hsq : ((k : Int) * k = n) ↔ k * k = n := by
        constructor
        · intro h; exact_mod_cast h
        · intro h; exact_mod_cast h
      rw [hmod, hdiv]
      have hcast : ((k + 1 : Nat) : Int) = (k : Int) + 1 := by push_cast; rfl
      rw [hcast] at hnext
      apply hnext _ (by omega) (by omega)
      by_cases hd : k ∣ n
      · have hmod0 : ((n % k : Nat) : Int) = 0 := by
          exact_mod_cast Nat.mod_eq_zero_of_dvd hd
        obtain ⟨m1, m2⟩ := divisors_seen_not_mem n k hk hkk hd
        rw [divisors_seen_succ_dvd n k hk hkk hd]
        by_cases hsquare : k * k = n
        · have hnk : n / k = k := by
            rw [← hsquare]; exact Nat.mul_div_cancel _ (by omega)
          simp only [hmod0, if_true, hsq.mpr hsquare, hnk, Finset.insert_idem]
          rw [Finset.sum_insert m1, hs]
          push_cast
          ring
        · have hne : k ≠ n / k := by
            intro h
            apply hsquare
            have := Nat.mul_div_cancel' hd
            rw [← h] at this
            exact this
          have hsq' : ¬ ((k : Int) * k = n) := fun h => hsquare (hsq.mp h)
          simp only [hmod0, if_true, hsq', if_false]
          rw [Finset.sum_insert (by
            simp only [Finset.mem_insert, not_or]
            exact ⟨hne, m1⟩), Finset.sum_insert m2, hs]
          push_cast
          ring
      · have hmod0 : ¬ (((n % k : Nat) : Int) = 0) := by
          intro h
          apply hd
          apply Nat.dvd_of_mod_eq_zero
          exact_mod_cast h
        have hsq' : ¬ ((k : Int) * k = n) := by
          intro h
          apply hd
          exact ⟨k, (hsq.mp h).symm⟩
        simp only [hmod0, if_false, hsq']
        rw [divisors_seen_succ_not_dvd n k hd]
        exact hs
    · have hkk' : ¬ ((k : Int) * k ≤ n) := by
        intro h
        apply hkk
        exact_mod_cast h
      have hlt : n < k * k := by omega
      simp only [divisor_loop, hkk', if_false]
      rw [hs, divisors_seen_all n k hlt]

/-! ## Reachable states, the search without the cache, the pushes -/

theorem good_of_mem (g : Graph) (st : SearchState)
    (hg : ∀ vs ∈ st.members.2, GoodMembers g vs) (c : ISS) (hc : c ∈ st.unchecked) :
    GoodMembers g c._vertices :=
  hg c._vertices (List.mem_map_of_mem _ hc)

theorem add_edge_add_edge (g : Graph) (a b : Nat) :
    (g.add_edge a b).add_edge a b = g.add_edge a b := by
  have hn : ∀ i j, ((g.add_edge a b).add_edge a b)._neighbors i j =
      (g.add_edge a b)._neighbors i j := by
    intro i j
    have h1 := are_neighbors_add_edge (g.add_edge a b) a b i j
    have h2 := are_neighbors_add_edge g a b i j
    simp only [Graph.are_neighbors] at h1 h2
    rw [h1, h2]
    cases decide ((i = a ∧ j = b) ∨ (i = b ∧ j = a)) <;> simp
  have hfun : ((g.add_edge a b).add_edge a b)._neighbors = (g.add_edge a b)._neighbors := by
    funext i j
    exact hn i j
  calc (g.add_edge a b).add_edge a b
      = { (g.add_edge a b) with _neighbors := ((g.add_edge a b).add_edge a b)._neighbors } := rfl
    _ = { (g.add_edge a b) with _neighbors := (g.add_edge a b)._neighbors } := by rw [hfun]

theorem wrap32_of_fits (x : Int) (h1 : -2147483648 ≤ x) (h2 : x ≤ 2147483647) :
    wrap32 x = x := by
  unfold wrap32
  rw [Int.emod_eq_of_lt (by omega) (by omega)]
  omega

theorem abs_sum_le_of_sums_fit (g : Graph) (hfit : g.sums_fit) (l : List Nat)
    (hnd : l.Nodup) (hr : ∀ v ∈ l, 1 ≤ v ∧ v ≤ g.get_num_vertices) :
    |(l.map g.get_weight).sum| ≤ 2147483647 := by
  have h1 : (l.map g.get_weight).sum = ∑ v ∈ l.toFinset, g.get_weight v :=
    (List.sum_toFinset g.get_weight hnd).symm
  have hsub : l.toFinset ⊆ Finset.Icc 1 g.get_num_vertices := by
    intro v hv
    exact Finset.mem_Icc.mpr (hr v (List.mem_toFinset.mp hv))
  calc |(l.map g.get_weight).sum|
      = |∑ v ∈ l.toFinset, g.get_weight v| := by rw [h1]
    _ ≤ ∑ v ∈ l.toFinset, |g.get_weight v| := Finset.abs_sum_le_sum_abs _ _
    _ ≤ ∑ v ∈ Finset.Icc 1 g.get_num_vertices, |g.get_weight v| :=
        Finset.sum_le_sum_of_subset_of_nonneg hsub (fun _ _ _ => abs_nonneg _)
    _ ≤ 2147483647 := hfit

theorem wrap32_sum (g : Graph) (hfit : g.sums_fit) (l : List Nat)
    (hnd : l.Nodup) (hr : ∀ v ∈ l, 1 ≤ v ∧ v ≤ g.get_num_vertices) :
    wrap32 ((l.map g.get_weight).sum) = (l.map g.get_weight).sum := by
  have h := abs_sum_le_of_sums_fit g hfit l hnd hr
  rw [abs_le] at h
  exact wrap32_of_fits _ (by omega) h.2

theorem weight_fold32 (g : Graph) (hfit : g.sums_fit) :
    ∀ (l done : List Nat), (done ++ l).Nodup →
      (∀ v ∈ done ++ l, 1 ≤ v ∧ v ≤ g.get_num_vertices) →
      l.foldl (fun weight it => wrap32 (weight + g.get_weight it))
          ((done.map g.get_weight).sum) =
        ((done ++ l).map g.get_weight).sum := by
  intro l
  induction l with
  | nil => intro done _ _; simp
  | cons x l ih =>
    intro done hnd hr
    have hnd2 : ((done ++ [x]) ++ l).Nodup := by simpa using hnd
    have hr2 : ∀ v ∈ (done ++ [x]) ++ l, 1 ≤ v ∧ v ≤ g.get_num_vertices := by
      simpa using hr
    have hpre : (done ++ [x]).Nodup := (List.nodup_append.mp hnd2).1
    have hprer : ∀ v ∈ done ++ [x], 1 ≤ v ∧ v ≤ g.get_num_vertices :=
      fun v hv => hr2 v (List.mem_append.mpr (Or.inl hv))
    have hw := wrap32_sum g hfit (done ++ [x]) hpre hprer
    have hsum : ((done ++ [x]).map g.get_weight).sum =
        (done.map g.get_weight).sum + g.get_weight x := by simp
    rw [hsum] at hw
    simp only [List.foldl_cons, hw]
    rw [← hsum, ih (done ++ [x]) hnd2 hr2]
    simp

theorem get_weight32_eq (g : Graph) (hfit : g.sums_fit) (c : ISS)
    (hg : GoodMembers g c._vertices) : c.get_weight32 g = c.get_weight g := by
  have h := weight_fold32 g hfit c._vertices [] (by simpa using hg.2.1.nodup)
    (by simpa using hg.2.2.1)
  have h2 : c.get_weight g = (c._vertices.map g.get_weight).sum := weight_of_eq_sum g _
  rw [h2]
  simpa [ISS.get_weight32] using h

theorem bound_fold32 (g : Graph) (hfit : g.sums_fit) :
    ∀ (l done : List Nat) (c : ISS), (done ++ l).Nodup →
      (∀ v ∈ done ++ l, 1 ≤ v ∧ v ≤ g.get_num_vertices) →
      l.foldl (fun (acc : Int × ISS) vertex =>
          ((if (ISS.can_make_superset g acc.2 vertex).1
              then wrap32 (acc.1 + g.get_weight vertex) else acc.1),
            (ISS.can_make_superset g acc.2 vertex).2)) ((done.map g.get_weight).sum, c) =
        l.foldl (fun (acc : Int × ISS) vertex =>
          ((if (ISS.can_make_superset g acc.2 vertex).1
              then acc.1 + g.get_weight vertex else acc.1),
            (ISS.can_make_superset g acc.2 vertex).2)) ((done.map g.get_weight).sum, c) := by
  intro l
  induction l with
  | nil => intro done c _ _; rfl
  | cons x l ih =>
    intro done c hnd hr
    simp only [List.foldl_cons]
    by_cases hq : (ISS.can_make_superset g c x).1 = true
    · have hnd2 : ((done ++ [x]) ++ l).Nodup := by simpa using hnd
      have hr2 : ∀ v ∈ (done ++ [x]) ++ l, 1 ≤ v ∧ v ≤ g.get_num_vertices := by
        simpa using hr
      have hpre : (done ++ [x]).Nodup := (List.nodup_append.mp hnd2).1
      have hprer : ∀ v ∈ done ++ [x], 1 ≤ v ∧ v ≤ g.get_num_vertices :=
        fun v hv => hr2 v (List.mem_append.mpr (Or.inl hv))
      have hw := wrap32_sum g hfit (done ++ [x]) hpre hprer
      have hsum : ((done ++ [x]).map g.get_weight).sum =
          (done.map g.get_weight).sum + g.get_weight x := by simp
      rw [hsum] at hw
      simp only [hq, if_true, hw]
      rw [← hsum]
      exact ih (done ++ [x]) _ hnd2 hr2
    · simp only [hq]
      have hnd2 : (done ++ l).Nodup := by
        have hsub : (done ++ l).Sublist (done ++ x :: l) :=
          List.Sublist.append (List.Sublist.refl done) (List.sublist_cons_self x l)
        exact List.Nodup.sublist hsub hnd
      have hr2 : ∀ v ∈ done ++ l, 1 ≤ v ∧ v ≤ g.get_num_vertices := by
        intro v hv
        apply hr v
        rcases List.mem_append.mp hv with h | h
        · simp [h]
        · simp [h]
      exact ih done _ hnd2 hr2

theorem members_qualifying_nodup (g : Graph) (vs : List Nat) (hg : GoodMembers g vs) :
    (vs ++ qualifying g vs).Nodup ∧
      ∀ v ∈ vs ++ qualifying g vs, 1 ≤ v ∧ v ≤ g.get_num_vertices := by
  obtain ⟨m, hm⟩ := getLast?_of_ne_nil _ hg.1
  constructor
  · rw [List.nodup_append]
    refine ⟨hg.2.1.nodup, qualifying_nodup g vs, ?_⟩
    intro a ha hb
    have h1 := sorted_lt_getLast vs hg.2.1 m hm a ha
    have h2 := (qualifying_spec g vs m hm a).mp hb
    omega
  · intro v hv
    rcases List.mem_append.mp hv with h | h
    · exact hg.2.2.1 v h
    · have h2 := (qualifying_spec g vs m hm v).mp h
      have h3 := hg.2.2.1 m (List.mem_of_getLast?_eq_some hm)
      omega

theorem theoretical_max_weight32_eq (g : Graph) (hfit : g.sums_fit) (c : ISS)
    (hc : Cand g c) (hg : GoodMembers g c._vertices) :
    c.theoretical_max_weight32 g = c.theoretical_max_weight g := by
  obtain ⟨m, hm⟩ := getLast?_of_ne_nil _ hc.1
  have hl : ∀ v ∈ ISS.loop_range g (m + 1), 1 ≤ v ∧ v ≤ g.get_num_vertices := by
    intro v hv
    have := (mem_loop_range g (m + 1) v).mp hv
    omega
  have hfold := bound_fold32 g hfit (ISS.loop_range g (m + 1)) [] c
    (by simpa [ISS.loop_range] using List.nodup_range' (m + 1) _) (by simpa using hl)
  simp only [List.map_nil, List.sum_nil] at hfold
  obtain ⟨f1, f2, _⟩ := bound_fold_spec g _ hl 0 c hc.2.2
  simp only [ISS.theoretical_max_weight32, ISS.theoretical_max_weight,
    ISS.next_unchecked_vertex, hm, Option.map_some', hfold]
  congr 1
  refine Prod.ext ?_ rfl
  simp only
  have hg2 : GoodMembers g (List.foldl (fun (acc : Int × ISS) vertex =>
      ((if (ISS.can_make_superset g acc.2 vertex).1 then acc.1 + g.get_weight vertex
        else acc.1), (ISS.can_make_superset g acc.2 vertex).2)) (0, c)
      (ISS.loop_range g (m + 1))).2._vertices := by rw [f2]; exact hg
  rw [get_weight32_eq g hfit _ hg2]
  obtain ⟨n1, n2⟩ := members_qualifying_nodup g c._vertices hg
  have hw := wrap32_sum g hfit _ n1 n2
  have hsum : ((c._vertices ++ qualifying g c._vertices).map g.get_weight).sum =
      weight_of g c._vertices + ((qualifying g c._vertices).map g.get_weight).sum := by
    rw [weight_of_eq_sum]; simp
  have hq : qualifying g c._vertices = (ISS.loop_range g (m + 1)).filter
      (fun v => ISS.scan_members g v c._vertices) := by simp [qualifying, hm]
  have hgw : ISS.get_weight g (List.foldl (fun (acc : Int × ISS) vertex =>
      ((if (ISS.can_make_superset g acc.2 vertex).1 then acc.1 + g.get_weight vertex
        else acc.1), (ISS.can_make_superset g acc.2 vertex).2)) (0, c)
      (ISS.loop_range g (m + 1))).2 = weight_of g c._vertices := by
    simp only [ISS.get_weight, weight_of, f2]
  rw [hgw, f1, zero_add, ← hq, ← hsum]
  exact hw

theorem step32_eq (g : Graph) (hfit : g.sums_fit) (choice : Nat) (st : SearchState)
    (hc : ∀ c ∈ st.unchecked, Cand g c) (hg : ∀ vs ∈ st.members.2, GoodMembers g vs) :
    step32 g choice st = step g choice st := by
  unfold step32 step
  cases hget : st.unchecked[choice % st.unchecked.length]? with
  | none => rfl
  | some iss =>
    have hmem : iss ∈ st.unchecked := List.getElem?_mem hget
    have hgood := good_of_mem g st hg iss hmem
    simp only [get_weight32_eq g hfit iss hgood,
      theoretical_max_weight32_eq g hfit iss (hc iss hmem) hgood]

theorem seed_fold32 (g : Graph) (hfit : g.sums_fit) (l : List Nat)
    (hl : ∀ v ∈ l, 1 ≤ v ∧ v ≤ g.get_num_vertices) :
    ∀ st0 : SearchState,
      l.foldl (fun (st : SearchState) vertex =>
        { best := if ((ISS.new g).add_vertex vertex).get_weight32 g > st.best
            then ((ISS.new g).add_vertex vertex).get_weight32 g else st.best
          unchecked := st.unchecked ++ [(ISS.new g).add_vertex vertex] }) st0 =
      l.foldl (fun (st : SearchState) vertex =>
        { best := if ((ISS.new g).add_vertex vertex).get_weight g > st.best
            then ((ISS.new g).add_vertex vertex).get_weight g else st.best
          unchecked := st.unchecked ++ [(ISS.new g).add_vertex vertex] }) st0 := by
  induction l with
  | nil => intro st0; rfl
  | cons a l ih =>
    intro st0
    have ha := hl a (List.mem_cons_self a l)
    have hgood : GoodMembers g ((ISS.new g).add_vertex a)._vertices := by
      refine ⟨by simp [ISS.add_vertex, ISS.new, set_insert],
        by simp [ISS.add_vertex, ISS.new, set_insert], ?_,
        by simp [ISS.add_vertex, ISS.new, set_insert]⟩
      intro v hv
      simp only [ISS.add_vertex, ISS.new, set_insert, List.mem_singleton] at hv
      rw [hv]; exact ha
    simp only [List.foldl_cons, get_weight32_eq g hfit _ hgood]
    exact ih (fun v hv => hl v (List.mem_cons_of_mem a hv)) _

theorem seed32_eq (g : Graph) (hfit : g.sums_fit) : seed32 g = seed g := by
  unfold seed32 seed
  apply seed_fold32 g hfit
  intro v hv
  rw [List.mem_range'] at hv
  obtain ⟨i, hi, rfl⟩ := hv
  have : g.get_num_vertices = g._num_vertices := rfl
  omega

theorem search_loop32_eq (g : Graph) (hfit : g.sums_fit) :
    ∀ (schedule : List Nat) (st : SearchState),
      (∀ c ∈ st.unchecked, Cand g c) → (∀ vs ∈ st.members.2, GoodMembers g vs) →
      search_loop32 g schedule st = search_loop g schedule st := by
  intro schedule
  induction schedule with
  | nil => intro st _ _; rfl
  | cons choice schedule ih =>
    intro st hc hg
    by_cases hne : st.unchecked = []
    · simp [search_loop32, search_loop, hne]
    · obtain ⟨st1, s1, s2, s3⟩ := step_spec g choice st hc hne
      have hg1 := ref_step_good g choice _ _ hg s3
      have hemp : st.unchecked.isEmpty = false := by
        cases hst : st.unchecked with
        | nil => exact absurd hst hne
        | cons _ _ => rfl
      simp only [search_loop32, search_loop, hemp, step32_eq g hfit choice st hc hg, s1,
        Option.bind]
      simpa using ih st1 s2 hg1

/-- On weights whose absolute values add up to at most `2 ^ 31 - 1` no `int`
sum of the search wraps: the search with `int` sums returns what the search in
exact arithmetic returns, under every schedule. -/
theorem max_iss_weight32_eq (g : Graph) (hfit : g.sums_fit) (schedule : List Nat) :
    g.max_iss_weight32 schedule = g.max_iss_weight schedule := by
  unfold Graph.max_iss_weight32 Graph.max_iss_weight
  rw [seed32_eq g hfit]
  exact search_loop32_eq g hfit schedule (seed g) (seed_spec g).2.1 (seed_good g)

theorem sums_fit_of_nonneg (g : Graph)
    (hw : ∀ v, 1 ≤ v → v ≤ g.get_num_vertices → 0 ≤ g.get_weight v)
    (hsum : ∑ v ∈ Finset.Icc 1 g.get_num_vertices, g.get_weight v ≤ 2147483647) :
    g.sums_fit := by
  unfold Graph.sums_fit
  rw [Finset.sum_congr rfl (fun v hv => abs_of_nonneg
    (hw v (Finset.mem_Icc.mp hv).1 (Finset.mem_Icc.mp hv).2))]
  exact hsum

/-! # The claims -/

/-- C1, as amended: on every graph built by `create(n)`, `set_weight` and
`add_edge` calls on vertices of `1..n`, with no negative weight on `1..n` and
weights that add up to at most `2 ^ 31 - 1`, the search with its `int` sums
returns, under every order in which candidates leave the queue, the greatest
total weight of a set of vertices of `1..n` no two distinct members of which
are adjacent. -/
theorem max_iss_weight_optimal (n : Nat) (w0 : Nat → Int) (a0 : Nat → Nat → Bool)
    (ops : List GraphOp) (_hn : 1 ≤ n) (_hops : ∀ op ∈ ops, op.in_range n)
    (hw : ∀ v, 1 ≤ v → v ≤ n → 0 ≤ ((Graph.create n w0 a0).run_ops ops).get_weight v)
    (hsum : ∑ v ∈ Finset.Icc 1 n, ((Graph.create n w0 a0).run_ops ops).get_weight v
      ≤ 2147483647)
    (schedule : List Nat) (hlen : 2 ^ n - 1 ≤ schedule.length) :
    ∃ r, ((Graph.create n w0 a0).run_ops ops).max_iss_weight32 schedule = some r ∧
      IsGreatest (independent_weights ((Graph.create n w0 a0).run_ops ops)) r := by
  have hnum : ((Graph.create n w0 a0).run_ops ops).get_num_vertices = n :=
    get_num_vertices_run_ops ops _
  have hfit : ((Graph.create n w0 a0).run_ops ops).sums_fit := by
    apply sums_fit_of_nonneg
    · intro v hv1 hv2
      rw [hnum] at hv2
      exact hw v hv1 hv2
    · rw [hnum]; exact hsum
  rw [max_iss_weight32_eq _ hfit]
  apply max_iss_weight_greatest _ (symmetric_run_ops ops _ (symmetric_create n w0 a0))
  · intro v hv1 hv2
    rw [hnum] at hv2
    exact hw v (by omega) hv2
  · rw [hnum]; exact hlen

theorem max_iss_weight_optimal_witness :
    ∃ r, ((Graph.create 4 (fun _ => 0) (fun _ _ => false)).run_ops
        (input_ops [1, 1, 1, 1] [(1, 2), (2, 3)])).max_iss_weight32 (List.replicate 15 0)
          = some r ∧
      IsGreatest (independent_weights ((Graph.create 4 (fun _ => 0) (fun _ _ => false)).run_ops
        (input_ops [1, 1, 1, 1] [(1, 2), (2, 3)]))) r :=
  max_iss_weight_optimal 4 (fun _ => 0) (fun _ _ => false)
    (input_ops [1, 1, 1, 1] [(1, 2), (2, 3)]) (by decide)
    (by decide)
    (by intro v h1 h2; interval_cases v <;> decide)
    (by decide)
    (List.replicate 15 0) (by decide)

/-- C1 fails on the graph with 4 vertices, edges {2,3}, {3,4}, {2,4} and the
weights 1, 2^30, 2^30, 2^30, none negative: the `int` bound of the candidate
{1} is 1 + 3 * 2^30 wrapped to 1 - 2^30, {1} is pruned and the search returns
2^30, while the independent set {1, 2} weighs 2^30 + 1. -/
theorem max_iss_weight_overflow_counterexample :
    (Graph.sample 4 [1, 1073741824, 1073741824, 1073741824]
        [(2, 3), (3, 4), (2, 4)]).max_iss_weight32 (List.replicate 15 0) = some 1073741824 ∧
      (((ISS.new (Graph.sample 4 [1, 1073741824, 1073741824, 1073741824]
        [(2, 3), (3, 4), (2, 4)])).add_vertex 1).theoretical_max_weight32
        (Graph.sample 4 [1, 1073741824, 1073741824, 1073741824]
          [(2, 3), (3, 4), (2, 4)])).map Prod.fst = some (-1073741823) ∧
      (∀ v ∈ Finset.Icc 1 4, 0 ≤ (Graph.sample 4 [1, 1073741824, 1073741824, 1073741824]
        [(2, 3), (3, 4), (2, 4)]).get_weight v) ∧
      ¬ IsGreatest (independent_weights (Graph.sample 4
        [1, 1073741824, 1073741824, 1073741824] [(2, 3), (3, 4), (2, 4)])) 1073741824 := by
  refine ⟨by decide, by decide, by decide, ?_⟩
  intro h
  have hmem : (1073741825 : Int) ∈ independent_weights (Graph.sample 4
      [1, 1073741824, 1073741824, 1073741824] [(2, 3), (3, 4), (2, 4)]) :=
    ⟨{1, 2}, by decide, by decide, by decide⟩
  have := h.2 hmem
  omega

/-- C2, as amended: on every graph built by `create(n)`, `set_weight` and
`add_edge` calls on vertices of `1..n` whose vertices `2..n` have no negative
weight (vertex 1 may have any weight) and whose weights have absolute values
that add up to at most `2 ^ 31 - 1`, the search with its `int` sums returns the
greatest total weight of an independent set, the empty set included. -/
theorem signed_first_vertex_optimal (n : Nat) (w0 : Nat → Int)
    (a0 : Nat → Nat → Bool) (ops : List GraphOp) (_hn : 1 ≤ n)
    (_hops : ∀ op ∈ ops, op.in_range n)
    (hw : ∀ v, 2 ≤ v → v ≤ n → 0 ≤ ((Graph.create n w0 a0).run_ops ops).get_weight v)
    (hfit : ∑ v ∈ Finset.Icc 1 n, |((Graph.create n w0 a0).run_ops ops).get_weight v|
      ≤ 2147483647)
    (schedule : List Nat) (hlen : 2 ^ n - 1 ≤ schedule.length) :
    ∃ r, ((Graph.create n w0 a0).run_ops ops).max_iss_weight32 schedule = some r ∧
      IsGreatest (independent_weights ((Graph.create n w0 a0).run_ops ops)) r := by
  have hnum : ((Graph.create n w0 a0).run_ops ops).get_num_vertices = n :=
    get_num_vertices_run_ops ops _
  have hfit2 : ((Graph.create n w0 a0).run_ops ops).sums_fit := by
    unfold Graph.sums_fit; rw [hnum]; exact hfit
  rw [max_iss_weight32_eq _ hfit2]
  apply max_iss_weight_greatest _ (symmetric_run_ops ops _ (symmetric_create n w0 a0))
  · intro v hv1 hv2
    rw [hnum] at hv2
    exact hw v hv1 hv2
  · rw [hnum]; exact hlen

theorem signed_first_vertex_optimal_witness :
    ∃ r, ((Graph.create 3 (fun _ => 0) (fun _ _ => false)).run_ops
        (input_ops [-4, 2, 3] [(2, 3)])).max_iss_weight32 (List.replicate 7 0) = some r ∧
      IsGreatest (independent_weights ((Graph.create 3 (fun _ => 0) (fun _ _ => false)).run_ops
        (input_ops [-4, 2, 3] [(2, 3)]))) r :=
  signed_first_vertex_optimal 3 (fun _ => 0) (fun _ _ => false)
    (input_ops [-4, 2, 3] [(2, 3)]) (by decide) (by decide)
    (by intro v h1 h2; interval_cases v <;> decide) (by decide)
    (List.replicate 7 0) (by decide)

/-- C2 fails on the graph with 3 vertices, no edges and weights 1, -5, 10: the
search returns 10, in exact arithmetic and with `int` sums alike (no sum
leaves the range of `int`), and the independent set {1, 3} weighs 11. -/
theorem max_iss_weight_negative_counterexample :
    (Graph.sample 3 [1, -5, 10] []).max_iss_weight (List.replicate 7 0) = some 10 ∧
      ¬ IsGreatest (independent_weights (Graph.sample 3 [1, -5, 10] [])) 10 ∧
      (Graph.sample 3 [1, -5, 10] []).max_iss_weight32 (List.replicate 7 0) = some 10 ∧
      (Graph.sample 3 [1, -5, 10] []).sums_fit := by
  refine ⟨by decide, ?_, by decide, by decide⟩
  intro h
  have h11 : (11 : Int) ∈ independent_weights (Graph.sample 3 [1, -5, 10] []) :=
    ⟨{1, 3}, by decide, by decide, by decide⟩
  have := h.2 h11
  omega

/-- C3: on the graph with 3 vertices, no edges and weights 5, -2, 3 the search
returns 8 under every order in which candidates leave the queue. -/
theorem max_iss_weight_5_m2_3 (w0 : Nat → Int) (a0 : Nat → Nat → Bool)
    (schedule : List Nat) (hlen : 7 ≤ schedule.length) :
    (Graph.read 3 w0 a0 [5, -2, 3] []).max_iss_weight schedule = some 8 := by
  set g := Graph.read 3 w0 a0 [5, -2, 3] [] with hg
  have hn : g.get_num_vertices = 3 := rfl
  have h1 : g.get_weight 1 = 5 := rfl
  have h2 : g.get_weight 2 = -2 := rfl
  have h3 : g.get_weight 3 = 3 := rfl
  have hadj : ∀ a b, 1 ≤ a → a ≤ 3 → 1 ≤ b → b ≤ 3 → g.are_neighbors a b = false := by
    intro a b ha1 ha2 hb1 hb2
    interval_cases a <;> interval_cases b <;> rfl
  have hsym : g.symmetric := by
    intro a b ha1 ha2 hb1 hb2
    rw [hn] at ha2 hb2
    rw [hadj a b ha1 ha2 hb1 hb2, hadj b a hb1 hb2 ha1 ha2]
  have hw1 : weight_of g [1] = 5 := rfl
  have hw2 : weight_of g [2] = -2 := rfl
  have hw3 : weight_of g [3] = 3 := rfl
  have hw13 : weight_of g [1, 3] = 8 := rfl
  have hb1 : bound_of g [1] = 6 := rfl
  have hb2 : bound_of g [2] = 1 := rfl
  have hb3 : bound_of g [3] = 3 := rfl
  have hq1 : qualifying g [1] = [2, 3] := rfl
  obtain ⟨r, hr1, hr2, hr3⟩ := max_iss_weight_inv g
    (fun a => a.1 ∈ independent_weights g ∧
      ((a.1 = 5 ∧ [1] ∈ a.2 ∧ ∀ vs ∈ a.2, vs = [1] ∨ vs = [2] ∨ vs = [3]) ∨
        (weight_of g [1, 3] ≤ a.1 ∨ [1, 3] ∈ a.2)))
    (by
      intro choice a a1 hgood ⟨p1, p2⟩ hstep
      refine ⟨ref_step_attained g hsym choice a a1 hgood p1 hstep, ?_⟩
      rcases p2 with ⟨q1, q2, q3⟩ | q
      · obtain ⟨b, F⟩ := a
        simp only at q1 q2 q3
        subst q1
        have hne : F ≠ [] := List.ne_nil_of_mem q2
        obtain ⟨l1, vs, l2, e1, e2⟩ := ref_step_cases g choice 5 F hne
        rw [e2] at hstep
        simp only [Option.some.injEq] at hstep
        subst hstep
        have hvs := q3 vs (by rw [e1]; simp)
        have hrest : ∀ ws ∈ l1 ++ l2, ws = [1] ∨ ws = [2] ∨ ws = [3] := by
          intro ws hws
          apply q3 ws
          rw [e1]
          rcases List.mem_append.mp hws with h | h
          · simp [h]
          · simp [h]
        rw [e1] at q2
        simp only [List.mem_append, List.mem_cons] at q2
        rcases hvs with rfl | rfl | rfl
        · right; right
          simp [hw1, hb1, hq1, set_insert]
        · left
          have h1mem : [1] ∈ l1 ++ l2 := by
            rcases q2 with h | h | h
            · simp [h]
            · simp at h
            · simp [h]
          simp only [hw2, hb2]
          refine ⟨by decide, ?_, ?_⟩
          · simpa using List.mem_append.mp h1mem
          · intro ws hws
            simp only [show ¬ ((1 : Int) > max 5 (-2)) by decide, if_false,
              List.append_nil] at hws
            exact hrest ws hws
        · left
          have h1mem : [1] ∈ l1 ++ l2 := by
            rcases q2 with h | h | h
            · simp [h]
            · simp at h
            · simp [h]
          simp only [hw3, hb3]
          refine ⟨by decide, ?_, ?_⟩
          · simpa using List.mem_append.mp h1mem
          · intro ws hws
            simp only [show ¬ ((3 : Int) > max 5 3) by decide, if_false,
              List.append_nil] at hws
            exact hrest ws hws
      · right
        exact ref_step_pending g choice a a1 [1, 3] q hstep)
    (by
      refine ⟨seed_attained g, Or.inl ⟨?_, ?_, ?_⟩⟩
      · obtain ⟨_, _, s3, s4, s5⟩ := seed_spec g
        show (seed g).best = 5
        have := s4 1 (by decide) (by rw [hn]; decide)
        rw [h1] at this
        rcases s5 with h | ⟨v, ⟨hv1, hv2⟩, h⟩
        · omega
        · rw [hn] at hv2
          interval_cases v
          · rw [h, h1]
          · rw [h, h2] at this; omega
          · rw [h, h3] at this; omega
      · rw [seed_members_iff]
        exact ⟨1, ⟨by decide, by rw [hn]; decide⟩, rfl⟩
      · intro vs hvs
        obtain ⟨v, ⟨hv1, hv2⟩, rfl⟩ := (seed_members_iff g vs).mp hvs
        rw [hn] at hv2
        interval_cases v <;> simp)
    schedule (by rw [hn]; exact hlen)
  rw [hr1]
  congr 1
  apply le_antisymm (weights_5_m2_3_le g hn h1 h2 h3 r hr2)
  rcases hr3 with ⟨_, h, _⟩ | h | h
  · simp at h
  · rw [hw13] at h; exact h
  · simp at h

theorem max_iss_weight_5_m2_3_witness :
    (Graph.read 3 (fun _ => 0) (fun _ _ => false) [5, -2, 3] []).max_iss_weight
      [2, 0, 1, 1, 0, 0, 0] = some 8 :=
  max_iss_weight_5_m2_3 (fun _ => 0) (fun _ _ => false) [2, 0, 1, 1, 0, 0, 0] (by decide)

/-- C4, as amended: on every graph with `n ≥ 1` vertices, no two of `1..n`
adjacent, no negative weight on `1..n` and weights that add up to at most
`2 ^ 31 - 1`, the search with its `int` sums returns the sum of the weights of
`1..n`. -/
theorem max_iss_weight_no_edges (g : Graph) (_hn : 1 ≤ g.get_num_vertices)
    (hno : ∀ a b, 1 ≤ a → a ≤ g.get_num_vertices → 1 ≤ b → b ≤ g.get_num_vertices →
      g.are_neighbors a b = false)
    (hw : ∀ v, 1 ≤ v → v ≤ g.get_num_vertices → 0 ≤ g.get_weight v)
    (hsum : ∑ v ∈ Finset.Icc 1 g.get_num_vertices, g.get_weight v ≤ 2147483647)
    (schedule : List Nat) (hlen : 2 ^ g.get_num_vertices - 1 ≤ schedule.length) :
    g.max_iss_weight32 schedule =
      some (∑ v ∈ Finset.Icc 1 g.get_num_vertices, g.get_weight v) := by
  have hsym : g.symmetric := by
    intro a b ha1 ha2 hb1 hb2
    rw [hno a b ha1 ha2 hb1 hb2, hno b a hb1 hb2 ha1 ha2]
  rw [max_iss_weight32_eq g (sums_fit_of_nonneg g hw hsum)]
  obtain ⟨r, h1, ⟨S, hS1, _, hS3⟩, h3⟩ := max_iss_weight_greatest g hsym
    (fun v hv1 hv2 => hw v (by omega) hv2) schedule hlen
  rw [h1]
  congr 1
  apply le_antisymm
  · rw [← hS3]
    unfold total_weight
    apply Finset.sum_le_sum_of_subset_of_nonneg hS1
    intro i hi _
    have := Finset.mem_Icc.mp hi
    exact hw i this.1 this.2
  · apply h3
    refine ⟨Finset.Icc 1 g.get_num_vertices, Finset.Subset.refl _, ?_, rfl⟩
    intro a ha b hb _
    have ha' := Finset.mem_Icc.mp ha
    have hb' := Finset.mem_Icc.mp hb
    exact hno a b ha'.1 ha'.2 hb'.1 hb'.2

theorem max_iss_weight_no_edges_witness :
    (Graph.sample 3 [2, 0, 5] []).max_iss_weight32 (List.replicate 7 0) =
      some (∑ v ∈ Finset.Icc 1 (Graph.sample 3 [2, 0, 5] []).get_num_vertices,
        (Graph.sample 3 [2, 0, 5] []).get_weight v) :=
  max_iss_weight_no_edges (Graph.sample 3 [2, 0, 5] []) (by decide)
    (by
      intro a b ha1 ha2 hb1 hb2
      have ha3 : a ≤ 3 := ha2
      have hb3 : b ≤ 3 := hb2
      interval_cases a <;> interval_cases b <;> decide)
    (by
      intro v h1 h2
      have h3 : v ≤ 3 := h2
      interval_cases v <;> decide)
    (by decide)
    (List.replicate 7 0) (by decide)

/-- C4 fails on the graph with 2 vertices, no edges and the weights
2147483647, 1: the `int` bound of the candidate {1} wraps to -2147483648, {1}
is pruned and the search returns 2147483647, not the sum 2147483648. -/
theorem max_iss_weight_no_edges_counterexample :
    (Graph.sample 2 [2147483647, 1] []).max_iss_weight32 (List.replicate 3 0) =
        some 2147483647 ∧
      (((ISS.new (Graph.sample 2 [2147483647, 1] [])).add_vertex 1).theoretical_max_weight32
        (Graph.sample 2 [2147483647, 1] [])).map Prod.fst = some (-2147483648) ∧
      (∑ v ∈ Finset.Icc 1 (Graph.sample 2 [2147483647, 1] []).get_num_vertices,
        (Graph.sample 2 [2147483647, 1] []).get_weight v) = 2147483648 ∧
      (∀ a ∈ Finset.Icc 1 2, ∀ b ∈ Finset.Icc 1 2,
        (Graph.sample 2 [2147483647, 1] []).are_neighbors a b = false) ∧
      (∀ v ∈ Finset.Icc 1 2, 0 ≤ (Graph.sample 2 [2147483647, 1] []).get_weight v) := by
  decide

/-- C5: on every graph with `n ≥ 1` vertices in which every two distinct
vertices of `1..n` are adjacent, whatever the weights, the search returns
`max(0, max(w1..wn))`. -/
theorem max_iss_weight_complete (g : Graph) (hn : 1 ≤ g.get_num_vertices)
    (hall : ∀ a b, 1 ≤ a → a ≤ g.get_num_vertices → 1 ≤ b → b ≤ g.get_num_vertices →
      a ≠ b → g.are_neighbors a b = true)
    (schedule : List Nat) (hlen : 2 ^ g.get_num_vertices - 1 ≤ schedule.length) :
    g.max_iss_weight schedule =
      some (max 0 ((Finset.Icc 1 g.get_num_vertices).sup'
        (Finset.nonempty_Icc.mpr hn) g.get_weight)) := by
  have hsym : g.symmetric := by
    intro a b ha1 ha2 hb1 hb2
    by_cases hab : a = b
    · rw [hab]
    · rw [hall a b ha1 ha2 hb1 hb2 hab, hall b a hb1 hb2 ha1 ha2 (Ne.symm hab)]
  obtain ⟨r, h1, h2, h3, h4, _⟩ := max_iss_weight_result g schedule hlen
  rw [h1]
  congr 1
  apply le_antisymm
  · obtain ⟨S, hS1, hS2, hS3⟩ := h2 hsym
    rw [← hS3]
    have hcard : S.card ≤ 1 := by
      rw [Finset.card_le_one]
      intro a ha b hb
      by_contra hab
      have ha' := Finset.mem_Icc.mp (hS1 ha)
      have hb' := Finset.mem_Icc.mp (hS1 hb)
      have e1 := hS2 a ha b hb hab
      rw [hall a b ha'.1 ha'.2 hb'.1 hb'.2 hab] at e1
      exact Bool.noConfusion e1
    rcases Finset.card_le_one_iff_subset_singleton.mp hcard with ⟨x, hx⟩
    rcases Finset.subset_singleton_iff.mp hx with h | h
    · rw [h]
      simp [total_weight]
    · have hxS : x ∈ S := by rw [h]; simp
      rw [h]
      simp only [total_weight, Finset.sum_singleton]
      exact le_max_of_le_right (Finset.le_sup' g.get_weight (hS1 hxS))
  · apply max_le h3
    apply Finset.sup'_le
    intro v hv
    have := Finset.mem_Icc.mp hv
    exact h4 v this.1 this.2

theorem max_iss_weight_complete_witness :
    (Graph.sample 3 [4, -7, 9] [(1, 2), (1, 3), (2, 3)]).max_iss_weight (List.replicate 7 0) =
      some (max 0 ((Finset.Icc 1
        (Graph.sample 3 [4, -7, 9] [(1, 2), (1, 3), (2, 3)]).get_num_vertices).sup'
        (Finset.nonempty_Icc.mpr (by decide))
        (Graph.sample 3 [4, -7, 9] [(1, 2), (1, 3), (2, 3)]).get_weight)) :=
  max_iss_weight_complete (Graph.sample 3 [4, -7, 9] [(1, 2), (1, 3), (2, 3)]) (by decide)
    (by
      intro a b ha1 ha2 hb1 hb2
      have ha3 : a ≤ 3 := ha2
      have hb3 : b ≤ 3 := hb2
      interval_cases a <;> interval_cases b <;> decide)
    (List.replicate 7 0) (by decide)

/-- C6: on the path with vertices `1..n`, `n ≥ 1`, where `i` and `i + 1` are
adjacent and no other two vertices are, every vertex of weight 1, the search
returns `(n + 1) / 2`. -/
theorem max_iss_weight_path (g : Graph) (_hn : 1 ≤ g.get_num_vertices)
    (hpath : ∀ a b, 1 ≤ a → a ≤ g.get_num_vertices → 1 ≤ b → b ≤ g.get_num_vertices →
      g.are_neighbors a b = decide (a + 1 = b ∨ b + 1 = a))
    (hw : ∀ v, 1 ≤ v → v ≤ g.get_num_vertices → g.get_weight v = 1)
    (schedule : List Nat) (hlen : 2 ^ g.get_num_vertices - 1 ≤ schedule.length) :
    g.max_iss_weight schedule = some (((g.get_num_vertices + 1) / 2 : Nat) : Int) := by
  have hsym : g.symmetric := by
    intro a b ha1 ha2 hb1 hb2
    rw [hpath a b ha1 ha2 hb1 hb2, hpath b a hb1 hb2 ha1 ha2, decide_eq_decide]
    tauto
  obtain ⟨r, h1, h2⟩ := max_iss_weight_greatest g hsym
    (fun v hv1 hv2 => by rw [hw v (by omega) hv2]; decide) schedule hlen
  rw [h1]
  congr 1
  apply h2.unique
  constructor
  · refine ⟨(Finset.range ((g.get_num_vertices + 1) / 2)).image (fun i => 2 * i + 1), ?_, ?_, ?_⟩
    · intro x hx
      obtain ⟨i, hi, rfl⟩ := Finset.mem_image.mp hx
      have := Finset.mem_range.mp hi
      exact Finset.mem_Icc.mpr ⟨by omega, by omega⟩
    · intro a ha b hb hab
      obtain ⟨i, hi, rfl⟩ := Finset.mem_image.mp ha
      obtain ⟨j, hj, rfl⟩ := Finset.mem_image.mp hb
      have hi' := Finset.mem_range.mp hi
      have hj' := Finset.mem_range.mp hj
      rw [hpath _ _ (by omega) (by omega) (by omega) (by omega), decide_eq_false_iff_not]
      omega
    · rw [total_weight_eq_card g _ _ hw]
      · rw [Finset.card_image_of_injective _ (fun a b h => by simp at h; omega),
          Finset.card_range]
      · intro x hx
        obtain ⟨i, hi, rfl⟩ := Finset.mem_image.mp hx
        have := Finset.mem_range.mp hi
        exact Finset.mem_Icc.mpr ⟨by omega, by omega⟩
  · rintro w ⟨S, hS1, hS2, rfl⟩
    rw [total_weight_eq_card g S hS1 hw]
    have : S.card ≤ (g.get_num_vertices + 1) / 2 := by
      apply card_le_of_no_consecutive _ S hS1
      intro a ha ha2
      have ha' := Finset.mem_Icc.mp (hS1 ha)
      have hb' := Finset.mem_Icc.mp (hS1 ha2)
      have := hS2 a ha (a + 1) ha2 (by omega)
      rw [hpath a (a + 1) ha'.1 ha'.2 hb'.1 hb'.2] at this
      simp at this
    exact_mod_cast this

theorem max_iss_weight_path_witness :
    (Graph.sample 4 [1, 1, 1, 1] [(1, 2), (2, 3), (3, 4)]).max_iss_weight
        (List.replicate 15 0) =
      some ((((Graph.sample 4 [1, 1, 1, 1] [(1, 2), (2, 3), (3, 4)]).get_num_vertices + 1) / 2
        : Nat) : Int) :=
  max_iss_weight_path (Graph.sample 4 [1, 1, 1, 1] [(1, 2), (2, 3), (3, 4)]) (by decide)
    (by
      intro a b ha1 ha2 hb1 hb2
      have ha3 : a ≤ 4 := ha2
      have hb3 : b ≤ 4 := hb2
      interval_cases a <;> interval_cases b <;> decide)
    (by
      intro v h1 h2
      have h3 : v ≤ 4 := h2
      interval_cases v <;> decide)
    (List.replicate 15 0) (by decide)

/-- C7: for every `n ≥ 1` the value the divisor-sum loop prints is the sum of
the positive divisors of `n` below `n`, each counted once; it is 0 for 1, 6 for
6, 28 for 28, and 1 + 2 + 4 + 8 for the perfect square 16. -/
theorem divisor_summation_eq (n : Nat) (hn : 1 ≤ n) (fuel : Nat) (hfuel : n ≤ fuel) :
    divisor_summation fuel (n : Int) = some ((∑ d ∈ Nat.properDivisors n, d : Nat) : Int) ∧
      divisor_summation 1 1 = some 0 ∧ divisor_summation 6 6 = some 6 ∧
      divisor_summation 28 28 = some 28 ∧ divisor_summation 16 16 = some (1 + 2 + 4 + 8) := by
  refine ⟨?_, by decide, by decide, by decide, by decide⟩
  by_cases h1 : n = 1
  · subst h1
    have hloop : ∀ f, divisor_loop 1 f 2 1 = some 1 := by
      intro f
      cases f <;> simp [divisor_loop]
    simp [divisor_summation, hloop]
  · have hseen : divisors_seen n 2 = ∅ := by
      ext d
      simp only [divisors_seen, Finset.mem_filter, Nat.mem_properDivisors, Finset.not_mem_empty,
        iff_false, not_and, not_or]
      intro ⟨hd1, hd2⟩ hd3
      refine ⟨by omega, ?_⟩
      have hdpos : 0 < d := by omega
      have : 2 ≤ n / d := by
        rw [Nat.le_div_iff_mul_le hdpos]
        obtain ⟨c, rfl⟩ := hd1
        have : 2 ≤ c := by
          by_contra hc
          have : c = 0 ∨ c = 1 := by omega
          rcases this with rfl | rfl <;> omega
        nlinarith
      omega
    have hspec := divisor_loop_spec n fuel 2 1 (le_refl 2) (by omega) (by simp [hseen])
    have hne : ¬ ((n : Int) = 1) := by
      intro h
      apply h1
      exact_mod_cast h
    simp only [divisor_summation]
    have h2 : ((2 : Nat) : Int) = 2 := rfl
    rw [h2] at hspec
    rw [hspec]
    simp only [Option.map_some', hne, if_false]
    rw [sum_properDivisors_split n (by omega)]
    push_cast
    rfl

theorem divisor_summation_eq_witness :
    divisor_summation 12 ((12 : Nat) : Int) =
        some ((∑ d ∈ Nat.properDivisors 12, d : Nat) : Int) ∧
      divisor_summation 1 1 = some 0 ∧ divisor_summation 6 6 = some 6 ∧
      divisor_summation 28 28 = some 28 ∧ divisor_summation 16 16 = some (1 + 2 + 4 + 8) :=
  divisor_summation_eq 12 (by decide) 12 (by decide)

/-- C9: after `create(n)` and any sequence of `add_edge` calls on vertices of
`1..n`, two vertices `x`, `y` of `1..n` are neighbours exactly when some call
was `add_edge(x, y)` or `add_edge(y, x)`; a fresh graph has no adjacent pair in
`1..n`; `add_edge(a, b)` changes no adjacency entry other than `(a, b)` and
`(b, a)` and no weight. -/
theorem are_neighbors_iff_added (n : Nat) (w0 : Nat → Int) (a0 : Nat → Nat → Bool)
    (edges : List (Nat × Nat)) (_hn : 1 ≤ n)
    (_hedges : ∀ e ∈ edges, (1 ≤ e.1 ∧ e.1 ≤ n) ∧ (1 ≤ e.2 ∧ e.2 ≤ n))
    (x y : Nat) (hx : 1 ≤ x ∧ x ≤ n) (hy : 1 ≤ y ∧ y ≤ n) :
    (((Graph.create n w0 a0).add_edges edges).are_neighbors x y = true ↔
        ((x, y) ∈ edges ∨ (y, x) ∈ edges)) ∧
      (Graph.create n w0 a0).are_neighbors x y = false ∧
      (∀ (g : Graph) (a b i j : Nat), ¬ ((i = a ∧ j = b) ∨ (i = b ∧ j = a)) →
        (g.add_edge a b).are_neighbors i j = g.are_neighbors i j) ∧
      (∀ (g : Graph) (a b : Nat), (g.add_edge a b).are_neighbors a b = true ∧
        (g.add_edge a b).are_neighbors b a = true) ∧
      ∀ (g : Graph) (a b v : Nat), (g.add_edge a b).get_weight v = g.get_weight v := by
  have hfresh : (Graph.create n w0 a0).are_neighbors x y = false := by
    simp [Graph.are_neighbors, Graph.create, hx.1, hx.2, hy.1, hy.2]
  refine ⟨?_, hfresh, ?_, ?_, fun _ _ _ _ => rfl⟩
  · rw [are_neighbors_add_edges, hfresh]
    simp
  · intro g a b i j hij
    rw [are_neighbors_add_edge]
    simp [hij]
  · intro g a b
    rw [are_neighbors_add_edge, are_neighbors_add_edge]
    simp

theorem are_neighbors_iff_added_witness :
    (((Graph.create 3 (fun _ => 9) (fun _ _ => true)).add_edges [(1, 2), (3, 2)]).are_neighbors
          2 3 = true ↔
        (((2 : Nat), (3 : Nat)) ∈ [((1 : Nat), (2 : Nat)), (3, 2)] ∨
          ((3 : Nat), (2 : Nat)) ∈ [((1 : Nat), (2 : Nat)), (3, 2)])) ∧
      (Graph.create 3 (fun _ => 9) (fun _ _ => true)).are_neighbors 2 3 = false ∧
      (∀ (g : Graph) (a b i j : Nat), ¬ ((i = a ∧ j = b) ∨ (i = b ∧ j = a)) →
        (g.add_edge a b).are_neighbors i j = g.are_neighbors i j) ∧
      (∀ (g : Graph) (a b : Nat), (g.add_edge a b).are_neighbors a b = true ∧
        (g.add_edge a b).are_neighbors b a = true) ∧
      ∀ (g : Graph) (a b v : Nat), (g.add_edge a b).get_weight v = g.get_weight v :=
  are_neighbors_iff_added 3 (fun _ => 9) (fun _ _ => true) [(1, 2), (3, 2)] (by decide)
    (by decide) 2 3 (by decide) (by decide)

/-- C10: in every graph reached from `create(n)` by `set_weight` and `add_edge`
calls on vertices of `1..n`, `are_neighbors(a, b)` equals `are_neighbors(b, a)`
for all `a`, `b` of `1..n`. -/
theorem are_neighbors_symmetric (n : Nat) (w0 : Nat → Int) (a0 : Nat → Nat → Bool)
    (ops : List GraphOp) (_hops : ∀ op ∈ ops, op.in_range n) (a b : Nat)
    (ha : 1 ≤ a ∧ a ≤ n) (hb : 1 ≤ b ∧ b ≤ n) :
    ((Graph.create n w0 a0).run_ops ops).are_neighbors a b =
      ((Graph.create n w0 a0).run_ops ops).are_neighbors b a := by
  have hnum : ((Graph.create n w0 a0).run_ops ops).get_num_vertices = n :=
    get_num_vertices_run_ops ops _
  apply symmetric_run_ops ops _ (symmetric_create n w0 a0) a b ha.1 _ hb.1 _
  · rw [hnum]; exact ha.2
  · rw [hnum]; exact hb.2

theorem are_neighbors_symmetric_witness :
    ((Graph.create 3 (fun _ => 9) (fun i j => decide (i < j))).run_ops
        [.add_edge 1 3, .set_weight 2 4, .add_edge 3 2]).are_neighbors 3 1 =
      ((Graph.create 3 (fun _ => 9) (fun i j => decide (i < j))).run_ops
        [.add_edge 1 3, .set_weight 2 4, .add_edge 3 2]).are_neighbors 1 3 :=
  are_neighbors_symmetric 3 (fun _ => 9) (fun i j => decide (i < j))
    [.add_edge 1 3, .set_weight 2 4, .add_edge 3 2] (by decide) 3 1 (by decide) (by decide)

/-- C11: `add_edge` is idempotent: for all `a`, `b` of `1..n`, the graph after
`add_edge(a, b)` twice is the graph after `add_edge(a, b)` once, with the same
adjacency relation and the same weights. -/
theorem add_edge_idempotent (g : Graph) (a b : Nat)
    (_ha : 1 ≤ a ∧ a ≤ g.get_num_vertices) (_hb : 1 ≤ b ∧ b ≤ g.get_num_vertices) :
    (g.add_edge a b).add_edge a b = g.add_edge a b ∧
      (∀ i j, ((g.add_edge a b).add_edge a b).are_neighbors i j =
        (g.add_edge a b).are_neighbors i j) ∧
      ∀ v, ((g.add_edge a b).add_edge a b).get_weight v = (g.add_edge a b).get_weight v := by
  have h := add_edge_add_edge g a b
  refine ⟨h, ?_, ?_⟩
  · intro i j; rw [h]
  · intro v; rw [h]

theorem add_edge_idempotent_witness :
    ((Graph.sample 3 [4, 5, 6] [(2, 3)]).add_edge 1 2).add_edge 1 2 =
        (Graph.sample 3 [4, 5, 6] [(2, 3)]).add_edge 1 2 ∧
      (∀ i j, (((Graph.sample 3 [4, 5, 6] [(2, 3)]).add_edge 1 2).add_edge 1 2).are_neighbors i j =
        ((Graph.sample 3 [4, 5, 6] [(2, 3)]).add_edge 1 2).are_neighbors i j) ∧
      ∀ v, (((Graph.sample 3 [4, 5, 6] [(2, 3)]).add_edge 1 2).add_edge 1 2).get_weight v =
        ((Graph.sample 3 [4, 5, 6] [(2, 3)]).add_edge 1 2).get_weight v :=
  add_edge_idempotent (Graph.sample 3 [4, 5, 6] [(2, 3)]) 1 2 (by decide) (by decide)

/-- C12, as amended: right after `create(n)`, `n ≥ 1`, `get_weight(v)` is what
the weight array held at `v` when it was allocated, for every `v` of `1..n`;
after `set_weight(v, w)` it is `w`, and the weights of the other vertices are
as before. -/
theorem get_weight_create (n : Nat) (w0 : Nat → Int) (a0 : Nat → Nat → Bool) (v : Nat)
    (w : Int) (_hn : 1 ≤ n) (_hv : 1 ≤ v ∧ v ≤ n) :
    (Graph.create n w0 a0).get_weight v = w0 v ∧
      ((Graph.create n w0 a0).set_weight v w).get_weight v = w ∧
      ∀ u, u ≠ v → ((Graph.create n w0 a0).set_weight v w).get_weight u =
        (Graph.create n w0 a0).get_weight u := by
  refine ⟨rfl, ?_, ?_⟩
  · simp [Graph.set_weight, Graph.get_weight]
  · intro u hu
    simp [Graph.set_weight, Graph.get_weight, Function.update_noteq hu]

theorem get_weight_create_witness :
    (Graph.create 2 (fun _ => 7) (fun _ _ => false)).get_weight 2 = (fun _ => (7 : Int)) 2 ∧
      ((Graph.create 2 (fun _ => 7) (fun _ _ => false)).set_weight 2 3).get_weight 2 = 3 ∧
      ∀ u, u ≠ 2 → ((Graph.create 2 (fun _ => 7) (fun _ _ => false)).set_weight 2 3).get_weight u =
        (Graph.create 2 (fun _ => 7) (fun _ _ => false)).get_weight u :=
  get_weight_create 2 (fun _ => 7) (fun _ _ => false) 2 3 (by decide) (by decide)

/-- C12 fails when the weight array is allocated over memory that holds 7:
`get_weight(1)` is 7 right after `create(1)`. -/
theorem uninitialised_weight_counterexample :
    (Graph.create 1 (fun _ => 7) (fun _ _ => false)).get_weight 1 = 7 ∧
      ¬ (Graph.create 1 (fun _ => 7) (fun _ _ => false)).get_weight 1 = 0 := by
  decide

/-- C13, as amended: for a well-formed candidate with members `S` in `1..n`
and every independent set `T` of `1..n` that is `S` and vertices above the
greatest member of `S`, `theoretical_max_weight` with its `int` sums returns at
least the weight of `T`, provided no vertex above the greatest member of `S`
and outside `T` has a negative weight and the absolute values of the weights
of `1..n` add up to at most `2 ^ 31 - 1`. -/
theorem theoretical_max_weight_admissible (g : Graph) (c : ISS) (hc : Cand g c)
    (hr : ∀ v ∈ c._vertices, 1 ≤ v ∧ v ≤ g.get_num_vertices)
    (T : Finset Nat) (hT1 : T ⊆ Finset.Icc 1 g.get_num_vertices) (hT2 : Independent g T)
    (hp : LeastMembers c._vertices T)
    (hw : ∀ v, (∀ u ∈ c._vertices, u < v) → v ≤ g.get_num_vertices → v ∉ T →
      0 ≤ g.get_weight v)
    (hfit : ∑ v ∈ Finset.Icc 1 g.get_num_vertices, |g.get_weight v| ≤ 2147483647) :
    ∃ b c1, c.theoretical_max_weight32 g = some (b, c1) ∧ total_weight g T ≤ b := by
  have hgood : GoodMembers g c._vertices := by
    refine ⟨hc.1, hc.2.1, hr, ?_⟩
    have hs := hc.2.1
    unfold List.Sorted at hs
    refine List.Pairwise.imp_of_mem ?_ hs
    intro a b ha hb hab
    exact hT2 a (hp.1 a ha) b (hp.1 b hb) (by omega)
  obtain ⟨c1, t1, _, _⟩ := theoretical_max_weight_spec g c hc
  refine ⟨bound_of g c._vertices, c1, ?_, ?_⟩
  · rw [theoretical_max_weight32_eq g hfit c hc hgood]
    exact t1
  apply bound_admissible g c._vertices hgood T hT1 hT2 hp
  intro v hv hvT
  obtain ⟨m, hm⟩ := getLast?_of_ne_nil _ hc.1
  have hq := (qualifying_spec g c._vertices m hm v).mp hv
  apply hw v _ hq.1.2 hvT
  intro u hu
  have := sorted_lt_getLast _ hc.2.1 m hm u hu
  omega

theorem theoretical_max_weight_admissible_witness :
    ∃ b c1, ((ISS.new (Graph.sample 3 [1, 5, 10] [(1, 2)])).add_vertex 1).theoretical_max_weight32
        (Graph.sample 3 [1, 5, 10] [(1, 2)]) = some (b, c1) ∧
      total_weight (Graph.sample 3 [1, 5, 10] [(1, 2)]) {1, 3} ≤ b :=
  theoretical_max_weight_admissible (Graph.sample 3 [1, 5, 10] [(1, 2)])
    ((ISS.new (Graph.sample 3 [1, 5, 10] [(1, 2)])).add_vertex 1) (cand_singleton _ 1)
    (by decide) {1, 3} (by decide) (by decide) (by decide)
    (by
      intro v h1 h2 h3
      have h4 : v ≤ 3 := h2
      have h5 : 1 < v := h1 1 (by decide)
      interval_cases v
      · decide
      · exact absurd (by decide) h3)
    (by decide)

/-- C13 fails on the graph with 3 vertices, no edges and weights 1, -5, 10: the
bound of the candidate {1} is 6, in exact arithmetic and with `int` sums alike
(no sum leaves the range of `int`), and the independent set {1, 3} weighs
11. -/
theorem theoretical_max_weight_counterexample :
    (((ISS.new (Graph.sample 3 [1, -5, 10] [])).add_vertex 1).theoretical_max_weight
        (Graph.sample 3 [1, -5, 10] [])).map Prod.fst = some 6 ∧
      Independent (Graph.sample 3 [1, -5, 10] []) {1, 3} ∧
      total_weight (Graph.sample 3 [1, -5, 10] []) {1, 3} = 11 ∧
      ((ISS.new (Graph.sample 3 [1, -5, 10] [])).add_vertex 1)._vertices = [1] ∧
      (((ISS.new (Graph.sample 3 [1, -5, 10] [])).add_vertex 1).theoretical_max_weight32
        (Graph.sample 3 [1, -5, 10] [])).map Prod.fst = some 6 ∧
      (Graph.sample 3 [1, -5, 10] []).sums_fit := by
  decide

/-- C14 fails on the graph with 2 vertices, no edges and weights 5, 1: the
first iteration may take the candidate {2}, of bound 1, while the candidate
{1}, of bound 6, is in the queue and `ISS::operator<` puts {2} below it. -/
theorem pop_not_highest :
    ((seed (Graph.sample 2 [5, 1] [])).unchecked.map ISS._vertices = [[1], [2]]) ∧
      ((seed (Graph.sample 2 [5, 1] [])).unchecked.map
        (fun c => (c.theoretical_max_weight (Graph.sample 2 [5, 1] [])).map Prod.fst)
          = [some 6, some 1]) ∧
      (step (Graph.sample 2 [5, 1] []) 1 (seed (Graph.sample 2 [5, 1] []))).map
        (fun st => st.unchecked.map ISS._vertices) = some [[1]] ∧
      pops_highest (Graph.sample 2 [5, 1] []) 1 (seed (Graph.sample 2 [5, 1] [])) = false := by
  decide

/-- C15, as amended: on every graph built by `create(n)`, `set_weight` and
`add_edge` calls on vertices of `1..n` whose vertices `2..n` have no negative
weight and whose weights have absolute values that add up to at most
`2 ^ 31 - 1`, any two executions of the search with its `int` sums return the
same value, whatever candidate each takes at each iteration; so do two
executions that always take a candidate of highest bound and differ in the
choice among equal bounds. -/
theorem result_independent_of_order (n : Nat) (w0 : Nat → Int) (a0 : Nat → Nat → Bool)
    (ops : List GraphOp) (_hops : ∀ op ∈ ops, op.in_range n)
    (hw : ∀ v, 2 ≤ v → v ≤ n → 0 ≤ ((Graph.create n w0 a0).run_ops ops).get_weight v)
    (hfit : ∑ v ∈ Finset.Icc 1 n, |((Graph.create n w0 a0).run_ops ops).get_weight v|
      ≤ 2147483647)
    (schedule1 schedule2 : List Nat) (hlen1 : 2 ^ n - 1 ≤ schedule1.length)
    (hlen2 : 2 ^ n - 1 ≤ schedule2.length) :
    ∃ r, ((Graph.create n w0 a0).run_ops ops).max_iss_weight32 schedule1 = some r ∧
      ((Graph.create n w0 a0).run_ops ops).max_iss_weight32 schedule2 = some r := by
  have hnum : ((Graph.create n w0 a0).run_ops ops).get_num_vertices = n :=
    get_num_vertices_run_ops ops _
  have hsym := symmetric_run_ops ops _ (symmetric_create n w0 a0)
  have hfit2 : ((Graph.create n w0 a0).run_ops ops).sums_fit := by
    unfold Graph.sums_fit; rw [hnum]; exact hfit
  have hw2 : ∀ v, 2 ≤ v → v ≤ ((Graph.create n w0 a0).run_ops ops).get_num_vertices →
      0 ≤ ((Graph.create n w0 a0).run_ops ops).get_weight v := by
    intro v hv1 hv2
    rw [hnum] at hv2
    exact hw v hv1 hv2
  obtain ⟨r1, e1, g1⟩ := max_iss_weight_greatest _ hsym hw2 schedule1 (by rw [hnum]; exact hlen1)
  obtain ⟨r2, e2, g2⟩ := max_iss_weight_greatest _ hsym hw2 schedule2 (by rw [hnum]; exact hlen2)
  rw [max_iss_weight32_eq _ hfit2, max_iss_weight32_eq _ hfit2]
  refine ⟨r1, e1, ?_⟩
  rw [e2, g2.unique g1]

theorem result_independent_of_order_witness :
    ∃ r, ((Graph.create 3 (fun _ => 0) (fun _ _ => false)).run_ops
        (input_ops [-4, 2, 3] [(1, 3)])).max_iss_weight32 [0, 0, 0, 0, 0, 0, 0] = some r ∧
      ((Graph.create 3 (fun _ => 0) (fun _ _ => false)).run_ops
        (input_ops [-4, 2, 3] [(1, 3)])).max_iss_weight32 [2, 1, 1, 0, 3, 0, 0] = some r :=
  result_independent_of_order 3 (fun _ => 0) (fun _ _ => false)
    (input_ops [-4, 2, 3] [(1, 3)]) (by decide)
    (by intro v h1 h2; interval_cases v <;> decide) (by decide)
    [0, 0, 0, 0, 0, 0, 0] [2, 1, 1, 0, 3, 0, 0] (by decide) (by decide)

/-- C15 fails on the graph with 4 vertices, edges {1,2} and {2,3} and weights
9, 4, -5, 6: the seeds {1} and {2} both have the bound 10; the execution that
takes {2} first returns 10, the one that takes {1} first returns 15, and both
take a candidate of highest bound at every iteration.  No sum leaves the range
of `int`, and the search with `int` sums returns the same two values. -/
theorem tie_break_counterexample :
    best_first (Graph.sample 4 [9, 4, -5, 6] [(1, 2), (2, 3)]) [1, 3, 0, 1, 0]
        (seed (Graph.sample 4 [9, 4, -5, 6] [(1, 2), (2, 3)])) = true ∧
      best_first (Graph.sample 4 [9, 4, -5, 6] [(1, 2), (2, 3)]) [0, 4, 0, 2, 1, 0]
        (seed (Graph.sample 4 [9, 4, -5, 6] [(1, 2), (2, 3)])) = true ∧
      (Graph.sample 4 [9, 4, -5, 6] [(1, 2), (2, 3)]).max_iss_weight [1, 3, 0, 1, 0] = some 10 ∧
      (Graph.sample 4 [9, 4, -5, 6] [(1, 2), (2, 3)]).max_iss_weight [0, 4, 0, 2, 1, 0] =
        some 15 ∧
      (Graph.sample 4 [9, 4, -5, 6] [(1, 2), (2, 3)]).max_iss_weight32 [1, 3, 0, 1, 0] =
        some 10 ∧
      (Graph.sample 4 [9, 4, -5, 6] [(1, 2), (2, 3)]).max_iss_weight32 [0, 4, 0, 2, 1, 0] =
        some 15 ∧
      (Graph.sample 4 [9, 4, -5, 6] [(1, 2), (2, 3)]).sums_fit := by
  decide

/-- C19, as amended: on every graph built by `create(n)`, `set_weight` and
`add_edge` calls on vertices of `1..n` whose weights have absolute values that
add up to at most `2 ^ 31 - 1`, whatever the signs of the weights and the order
of the pops, the value the search with its `int` sums returns is 0 or the total
weight of a non-empty independent set, so it is above no bound of the weights
of the independent sets, and it is at least `max(0, weight[v])` for every
vertex `v`. -/
theorem result_attained (n : Nat) (w0 : Nat → Int) (a0 : Nat → Nat → Bool)
    (ops : List GraphOp) (_hops : ∀ op ∈ ops, op.in_range n)
    (hfit : ∑ v ∈ Finset.Icc 1 n, |((Graph.create n w0 a0).run_ops ops).get_weight v|
      ≤ 2147483647)
    (schedule : List Nat) (hlen : 2 ^ n - 1 ≤ schedule.length) :
    ∃ r, ((Graph.create n w0 a0).run_ops ops).max_iss_weight32 schedule = some r ∧
      (r = 0 ∨ ∃ S : Finset Nat, S.Nonempty ∧ S ⊆ Finset.Icc 1 n ∧
        Independent ((Graph.create n w0 a0).run_ops ops) S ∧
        total_weight ((Graph.create n w0 a0).run_ops ops) S = r) ∧
      (∀ M : Int, (∀ w ∈ independent_weights ((Graph.create n w0 a0).run_ops ops), w ≤ M) →
        r ≤ M) ∧
      ∀ v, 1 ≤ v → v ≤ n → max 0 (((Graph.create n w0 a0).run_ops ops).get_weight v) ≤ r := by
  have hnum : ((Graph.create n w0 a0).run_ops ops).get_num_vertices = n :=
    get_num_vertices_run_ops ops _
  have hsym := symmetric_run_ops ops _ (symmetric_create n w0 a0)
  have hfit2 : ((Graph.create n w0 a0).run_ops ops).sums_fit := by
    unfold Graph.sums_fit; rw [hnum]; exact hfit
  obtain ⟨r, h1, h2, h3, h4, _⟩ := max_iss_weight_result _ schedule (by rw [hnum]; exact hlen)
  obtain ⟨S, hS1, hS2, hS3⟩ := h2 hsym
  refine ⟨r, by rw [max_iss_weight32_eq _ hfit2]; exact h1, ?_, ?_, ?_⟩
  · by_cases hS : S.Nonempty
    · right
      rw [hnum] at hS1
      exact ⟨S, hS, hS1, hS2, hS3⟩
    · left
      rw [Finset.not_nonempty_iff_eq_empty] at hS
      rw [← hS3, hS]
      simp [total_weight]
  · intro M hM
    exact hM r ⟨S, hS1, hS2, hS3⟩
  · intro v hv1 hv2
    exact max_le h3 (h4 v hv1 (by rw [hnum]; exact hv2))

theorem result_attained_witness :
    ∃ r, ((Graph.create 3 (fun _ => 0) (fun _ _ => false)).run_ops
        (input_ops [1, -5, 10] [(1, 3)])).max_iss_weight32 [2, 0, 1, 0, 0, 0, 0] = some r ∧
      (r = 0 ∨ ∃ S : Finset Nat, S.Nonempty ∧ S ⊆ Finset.Icc 1 3 ∧
        Independent ((Graph.create 3 (fun _ => 0) (fun _ _ => false)).run_ops
          (input_ops [1, -5, 10] [(1, 3)])) S ∧
        total_weight ((Graph.create 3 (fun _ => 0) (fun _ _ => false)).run_ops
          (input_ops [1, -5, 10] [(1, 3)])) S = r) ∧
      (∀ M : Int, (∀ w ∈ independent_weights ((Graph.create 3 (fun _ => 0)
        (fun _ _ => false)).run_ops (input_ops [1, -5, 10] [(1, 3)])), w ≤ M) → r ≤ M) ∧
      ∀ v, 1 ≤ v → v ≤ 3 → max 0 (((Graph.create 3 (fun _ => 0) (fun _ _ => false)).run_ops
        (input_ops [1, -5, 10] [(1, 3)])).get_weight v) ≤ r :=
  result_attained 3 (fun _ => 0) (fun _ _ => false) (input_ops [1, -5, 10] [(1, 3)])
    (by decide) (by decide) [2, 0, 1, 0, 0, 0, 0] (by decide)

/-- C19 fails on the graph with 2 vertices, no edges and the weights
-2147483648, -2147483647: the `int` bound of the candidate {1} and the `int`
weight of its child {1, 2} wrap to 1, so the search returns 1, while no
independent set weighs more than 0. -/
theorem result_attained_counterexample :
    (Graph.sample 2 [-2147483648, -2147483647] []).max_iss_weight32 (List.replicate 3 0) =
        some 1 ∧
      ∀ w ∈ independent_weights (Graph.sample 2 [-2147483648, -2147483647] []), w ≤ 0 := by
  refine ⟨by decide, ?_⟩
  rintro w ⟨S, hS1, _, rfl⟩
  unfold total_weight
  apply Finset.sum_nonpos
  intro v hv
  have hv2 := Finset.mem_Icc.mp (hS1 hv)
  have h3 : v ≤ 2 := hv2.2
  have h1 := hv2.1
  interval_cases v <;> decide

end Spoj
